import Mathlib

/-!
Shallow embedding of the architecture-center scan scripts
(`scripts/scan_architecture_center_yml.py` and
`scripts/build_scan_results_xlsx.py`).

Python regular expressions are embedded as executable character-list
matchers, `re.findall` / `re.search` as left-to-right scans, `sorted(set(s))`
as dedup-then-insertion-sort, and the per-document body of `scan` as a pure
function from the document's inputs (parsed YAML value, filesystem probe,
file reader) to the emitted record.
-/

namespace ACS

/-- Python `str`/`re` whitespace (`\s`, `str.strip()`), ASCII range. -/
def pyWs (c : Char) : Bool :=
  c = ' ' || c = '\t' || c = '\n' || c = '\r' || c = Char.ofNat 11 || c = Char.ofNat 12

/-- The single-quote character. -/
def chSq : Char := Char.ofNat 39

/-- The double-quote character. -/
def chDq : Char := Char.ofNat 34

/-- The backslash character. -/
def chBs : Char := Char.ofNat 92

/-- Characters allowed inside a matched URL: the complement of the character
class `[\s\)\]\\\"']` used by `AZURE_E_RE`, `CALC_ANY_RE` and `IMAGE_PATH_RE`. -/
def tokenChar (c : Char) : Bool :=
  !(pyWs c || c = ')' || c = ']' || c = chBs || c = chDq || c = chSq)

/-- Lowercase a character list (model of `str.lower()` / `re.IGNORECASE`). -/
def lowerL (cs : List Char) : List Char := cs.map Char.toLower

/-- Lowercase a string. -/
def lowerS (s : String) : String := ⟨lowerL s.data⟩

/-- Python `str.strip()` of a custom character set: drop matching characters
from both ends. -/
def stripChars (p : Char → Bool) (cs : List Char) : List Char :=
  ((cs.dropWhile p).reverse.dropWhile p).reverse

/-- Python `str.strip()` (whitespace), on strings. -/
def pyStrip (s : String) : String := ⟨stripChars pyWs s.data⟩

/-- Python `str.rstrip(chars)`: drop matching characters from the right end. -/
def rstripChars (p : Char → Bool) (cs : List Char) : List Char :=
  (cs.reverse.dropWhile p).reverse

section SortedSet

/-- One pass of dedup keeping the first occurrence (`seen` are the values
already emitted). -/
def dedupKF (seen : List String) : List String → List String
  | [] => []
  | x :: xs => if x ∈ seen then dedupKF seen xs else x :: dedupKF (x :: seen) xs

theorem mem_dedupKF (seen l : List String) (a : String) :
    a ∈ dedupKF seen l ↔ a ∈ l ∧ a ∉ seen := by
  induction l generalizing seen with
  | nil => simp [dedupKF]
  | cons x xs ih =>
    by_cases hx : x ∈ seen
    · rw [dedupKF, if_pos hx, ih]
      constructor
      · rintro ⟨h1, h2⟩
        exact ⟨List.mem_cons_of_mem _ h1, h2⟩
      · rintro ⟨h1, h2⟩
        rcases List.mem_cons.mp h1 with rfl | h
        · exact absurd hx h2
        · exact ⟨h, h2⟩
    · rw [dedupKF, if_neg hx]
      constructor
      · intro h
        rcases List.mem_cons.mp h with rfl | h
        · exact ⟨List.mem_cons_self _ _, hx⟩
        · rw [ih] at h
          exact ⟨List.mem_cons_of_mem _ h.1,
            fun hs => h.2 (List.mem_cons_of_mem _ hs)⟩
      · rintro ⟨h1, h2⟩
        rcases List.mem_cons.mp h1 with rfl | h
        · exact List.mem_cons_self _ _
        · by_cases hax : a = x
          · subst hax; exact List.mem_cons_self _ _
          · refine List.mem_cons_of_mem _ ?_
            rw [ih]
            exact ⟨h, fun hs => by
              rcases List.mem_cons.mp hs with h' | h'
              · exact hax h'
              · exact h2 h'⟩

theorem nodup_dedupKF (seen l : List String) : (dedupKF seen l).Nodup := by
  induction l generalizing seen with
  | nil => simp [dedupKF]
  | cons x xs ih =>
    by_cases hx : x ∈ seen
    · rw [dedupKF, if_pos hx]; exact ih seen
    · rw [dedupKF, if_neg hx]
      refine List.nodup_cons.mpr ⟨?_, ih (x :: seen)⟩
      intro hmem
      exact ((mem_dedupKF _ _ _).mp hmem).2 (List.mem_cons_self _ _)

/-- Code-point lexicographic strict order on character lists (Python `<` on
`str`). -/
def lexLt : List Char → List Char → Bool
  | [], [] => false
  | [], _ :: _ => true
  | _ :: _, [] => false
  | a :: as, b :: bs => if a = b then lexLt as bs else decide (a.toNat < b.toNat)

/-- Code-point lexicographic strict order on strings. -/
def strLtB (a b : String) : Bool := lexLt a.data b.data

/-- The matching non-strict order (`a ≤ b` iff not `b < a`). -/
def strLeB (a b : String) : Bool := !strLtB b a

theorem lexLt_asymm {a b : List Char} (h : lexLt a b = true) : lexLt b a = false := by
  induction a generalizing b with
  | nil => cases b with
    | nil => simp [lexLt] at h
    | cons y ys => simp [lexLt]
  | cons x xs ih =>
    cases b with
    | nil => simp [lexLt] at h
    | cons y ys =>
      by_cases hxy : x = y
      · subst hxy
        rw [lexLt, if_pos rfl] at h ⊢
        exact ih h
      · rw [lexLt, if_neg hxy] at h
        rw [lexLt, if_neg (fun hyx => hxy hyx.symm)]
        simp only [decide_eq_true_eq] at h
        simp only [decide_eq_false_iff_not]
        omega

theorem lexLt_trans {a b c : List Char} (h1 : lexLt a b = true)
    (h2 : lexLt b c = true) : lexLt a c = true := by
  induction a generalizing b c with
  | nil =>
    cases c with
    | nil =>
      cases b with
      | nil => exact h1
      | cons y ys => simp [lexLt] at h2
    | cons z zs => simp [lexLt]
  | cons x xs ih =>
    cases b with
    | nil => simp [lexLt] at h1
    | cons y ys =>
      cases c with
      | nil => simp [lexLt] at h2
      | cons z zs =>
        by_cases hxy : x = y
        · subst hxy
          rw [lexLt, if_pos rfl] at h1
          by_cases hyz : x = z
          · subst hyz
            rw [lexLt, if_pos rfl] at h2 ⊢
            exact ih h1 h2
          · rw [lexLt, if_neg hyz] at h2 ⊢
            exact h2
        · rw [lexLt, if_neg hxy] at h1
          simp only [decide_eq_true_eq] at h1
          by_cases hyz : y = z
          · subst hyz
            rw [lexLt, if_neg hxy]
            simpa using h1
          · rw [lexLt, if_neg hyz] at h2
            simp only [decide_eq_true_eq] at h2
            have hxz : x ≠ z := by
              intro he
              subst he
              omega
            rw [lexLt, if_neg hxz]
            simp only [decide_eq_true_eq]
            omega

theorem strLeB_of_not_lt {a b : String} (h : strLtB b a = false) :
    strLeB a b = true := by
  simp [strLeB, h]

theorem strLeB_of_lt {a b : String} (h : strLtB a b = true) :
    strLeB a b = true := by
  simp [strLeB, strLtB, lexLt_asymm h]

theorem lexLt_connex {a b : List Char} (h1 : lexLt a b = false)
    (h2 : lexLt b a = false) : a = b := by
  induction a generalizing b with
  | nil => cases b with
    | nil => rfl
    | cons y ys => simp [lexLt] at h1
  | cons x xs ih =>
    cases b with
    | nil => simp [lexLt] at h2
    | cons y ys =>
      by_cases hxy : x = y
      · subst hxy
        rw [lexLt, if_pos rfl] at h1 h2
        rw [ih h1 h2]
      · rw [lexLt, if_neg hxy] at h1
        rw [lexLt, if_neg (fun hyx => hxy hyx.symm)] at h2
        simp only [decide_eq_false_iff_not] at h1 h2
        have hn : x.toNat = y.toNat := by omega
        exact absurd (Char.eq_of_val_eq (by
          have : x.val.toNat = y.val.toNat := hn
          exact UInt32.eq_of_val_eq (Fin.ext this))) hxy

theorem strLeB_trans {a b c : String} (h1 : strLeB a b = true)
    (h2 : strLeB b c = true) : strLeB a c = true := by
  simp only [strLeB, Bool.not_eq_true', strLtB] at h1 h2 ⊢
  by_cases h : lexLt c.data a.data = true
  · exfalso
    by_cases hbc : lexLt b.data c.data = true
    · rw [lexLt_trans hbc h] at h1
      simp at h1
    · have hb : b.data = c.data := lexLt_connex (Bool.not_eq_true _ ▸ hbc) h2
      rw [← hb] at h
      rw [h] at h1
      simp at h1
  · exact Bool.not_eq_true _ ▸ h

/-- Insert into a (lexicographically) sorted list of strings. -/
def insSorted (x : String) : List String → List String
  | [] => [x]
  | y :: ys => if strLtB x y then x :: y :: ys else y :: insSorted x ys

/-- Insertion sort by the code-point lexicographic order on strings
(Python's `sorted` on `str`). -/
def isort : List String → List String
  | [] => []
  | x :: xs => insSorted x (isort xs)

/-- Model of Python `sorted(set(l))`: distinct elements in ascending
lexicographic order. -/
def pySortedSet (l : List String) : List String := isort (dedupKF [] l)

theorem perm_insSorted (x : String) (l : List String) :
    List.Perm (insSorted x l) (x :: l) := by
  induction l with
  | nil => rfl
  | cons y ys ih =>
    rw [insSorted]
    by_cases hxy : strLtB x y = true
    · rw [if_pos hxy]
    · rw [if_neg hxy]
      exact (ih.cons y).trans (List.Perm.swap x y ys)

theorem perm_isort (l : List String) : List.Perm (isort l) l := by
  induction l with
  | nil => rfl
  | cons x xs ih =>
    rw [isort]
    exact (perm_insSorted x (isort xs)).trans (ih.cons x)

theorem sorted_insSorted {x : String} {l : List String}
    (h : l.Pairwise (fun a b => strLeB a b = true)) :
    (insSorted x l).Pairwise (fun a b => strLeB a b = true) := by
  induction l with
  | nil => simp [insSorted]
  | cons y ys ih =>
    rw [insSorted]
    by_cases hxy : strLtB x y = true
    · rw [if_pos hxy]
      refine List.Pairwise.cons ?_ h
      intro b hb
      rcases List.mem_cons.mp hb with rfl | hb
      · exact strLeB_of_lt hxy
      · exact strLeB_trans (strLeB_of_lt hxy) (List.rel_of_pairwise_cons h hb)
    · rw [if_neg hxy]
      rcases List.pairwise_cons.mp h with ⟨hy, hys⟩
      refine List.pairwise_cons.mpr ⟨?_, ih hys⟩
      intro b hb
      rcases List.mem_cons.mp ((perm_insSorted x ys).mem_iff.mp hb) with rfl | hb2
      · exact strLeB_of_not_lt (by simpa using hxy)
      · exact hy _ hb2

theorem sorted_isort (l : List String) :
    (isort l).Pairwise (fun a b => strLeB a b = true) := by
  induction l with
  | nil => simp [isort]
  | cons x xs ih => exact sorted_insSorted ih

theorem mem_pySortedSet (l : List String) (a : String) :
    a ∈ pySortedSet l ↔ a ∈ l := by
  rw [pySortedSet, (perm_isort _).mem_iff, mem_dedupKF]
  simp

theorem nodup_pySortedSet (l : List String) : (pySortedSet l).Nodup :=
  (perm_isort _).nodup_iff.mpr (nodup_dedupKF [] l)

theorem sorted_pySortedSet (l : List String) :
    (pySortedSet l).Pairwise (fun a b => strLeB a b = true) := sorted_isort _

end SortedSet

section Matchers

/-- Case-insensitive literal matcher. The pattern is given lowercased; on
success returns the consumed characters (as written in the input) and the
rest of the input. -/
def ciLit : List Char → List Char → Option (List Char × List Char)
  | [], s => some ([], s)
  | _ :: _, [] => none
  | p :: ps, c :: cs =>
    if c.toLower = p then
      match ciLit ps cs with
      | some (m, r) => some (c :: m, r)
      | none => none
    else none

/-- Optional single character (`s?` in `https?`), case-insensitive. -/
def optCh (p : Char) : List Char → List Char × List Char
  | [] => ([], [])
  | c :: cs => if c.toLower = p then ([c], cs) else ([], c :: cs)

/-- One character of `[a-z]` under `re.IGNORECASE`. -/
def letterCi (c : Char) : Bool := c.toLower.isLower

/-- Matcher for `AZURE_E_RE` at the current position:
`https?://azure\.com/e/[^\s\)\]\\\"']+`, case-insensitive. -/
def tryE (s : List Char) : Option (List Char × List Char) :=
  match ciLit ("http".data) s with
  | none => none
  | some (c1, r1) =>
    let s2 := optCh 's' r1
    match ciLit ("://azure.com/e/".data) s2.2 with
    | none => none
    | some (c3, r3) =>
      let tok := r3.takeWhile tokenChar
      if tok.isEmpty then none
      else some (c1 ++ s2.1 ++ c3 ++ tok, r3.drop tok.length)

/-- The optional locale segment `(?:[a-z]{2}-[a-z]{2}/)?` (`LOCALE_SEG`). -/
def tryLocale : List Char → Option (List Char × List Char)
  | a :: b :: d :: e :: f :: g :: rest =>
    if letterCi a && letterCi b && d = '-' && letterCi e && letterCi f && g = '/' then
      some ([a, b, d, e, f, g], rest)
    else none
  | _ => none

/-- Shared prefix of `CALC_ANY_RE` and `CALC_ROOT_RE`:
`https?://azure\.microsoft\.com/(?:[a-z]{2}-[a-z]{2}/)?pricing/calculator`,
with the locale group backtracked when the literal after it fails. -/
def tryCalcPre (s : List Char) : Option (List Char × List Char) :=
  match ciLit ("http".data) s with
  | none => none
  | some (c1, r1) =>
    let s2 := optCh 's' r1
    match ciLit ("://azure.microsoft.com/".data) s2.2 with
    | none => none
    | some (c3, r3) =>
      match tryLocale r3 with
      | some (c4, r4) =>
        match ciLit ("pricing/calculator".data) r4 with
        | some (c5, r5) => some (c1 ++ s2.1 ++ c3 ++ c4 ++ c5, r5)
        | none =>
          match ciLit ("pricing/calculator".data) r3 with
          | some (c5, r5) => some (c1 ++ s2.1 ++ c3 ++ c5, r5)
          | none => none
      | none =>
        match ciLit ("pricing/calculator".data) r3 with
        | some (c5, r5) => some (c1 ++ s2.1 ++ c3 ++ c5, r5)
        | none => none

/-- Matcher for `CALC_ANY_RE` at the current position: the calculator prefix
followed by `[^\s\)\]\\\"']*`. -/
def tryCalcAny (s : List Char) : Option (List Char × List Char) :=
  match tryCalcPre s with
  | none => none
  | some (pre, r) =>
    let tok := r.takeWhile tokenChar
    some (pre ++ tok, r.drop tok.length)

/-- Test for `CALC_ROOT_RE.match(s)` (anchored at the start): the calculator
prefix, a greedy optional `/`, then the lookahead `(?=$|[\s\)\]\\\"'])`. -/
def calcRootB (s : List Char) : Bool :=
  match tryCalcPre s with
  | none => false
  | some (_, r) =>
    match r with
    | [] => true
    | d :: r2 =>
      if d = '/' then
        match r2 with
        | [] => true
        | d2 :: _ => !tokenChar d2
      else !tokenChar d

/-- The extension alternation `(?:svg|png|jpg|jpeg)`, case-insensitive, in
the alternation order of the source pattern. -/
def tryExt (s : List Char) : Option (List Char × List Char) :=
  match ciLit ("svg".data) s with
  | some r => some r
  | none =>
    match ciLit ("png".data) s with
    | some r => some r
    | none =>
      match ciLit ("jpg".data) s with
      | some r => some r
      | none => ciLit ("jpeg".data) s

/-- Greedy backtracking of `[^...]+\.(?:svg|png|jpg|jpeg)` over a maximal
character-class run: try dot positions from the right; the group is the run
up to the dot plus the extension. The argument is the candidate dot index. -/
def extGroupGo (run : List Char) : Nat → Option (List Char)
  | 0 => none
  | d + 1 =>
    match run.drop (d + 1) with
    | '.' :: after =>
      match tryExt after with
      | some (ext, _) => some (run.take (d + 1) ++ '.' :: ext)
      | none => extGroupGo run d
    | _ => extGroupGo run d

/-- Matcher for `IMAGE_PATH_RE` at the current position:
`[^\s\)\]\\\"']+\.(?:svg|png|jpg|jpeg)`, case-insensitive. -/
def tryImgPath (s : List Char) : Option (List Char × List Char) :=
  let run := s.takeWhile tokenChar
  match extGroupGo run (run.length - 1) with
  | some g => some (g, s.drop g.length)
  | none => none

/-- Left-to-right non-overlapping scan (Python `re.findall`): on a failed
match the position advances by one, on success it advances past the match.
The fuel exceeds the number of steps, every step consuming at least one
character. -/
def scanA (tryAt : List Char → Option (List Char × List Char)) :
    Nat → List Char → List (List Char)
  | 0, _ => []
  | _ + 1, [] => []
  | fuel + 1, c :: cs =>
    match tryAt (c :: cs) with
    | some (m, r) => m :: scanA tryAt fuel r
    | none => scanA tryAt fuel cs

/-- Python `re.findall` over a string. -/
def pyFindall (tryAt : List Char → Option (List Char × List Char))
    (cs : List Char) : List (List Char) :=
  scanA tryAt (cs.length + 1) cs

/-- Python `re.search` (first match) as a fuel scan. -/
def searchA (tryAt : List Char → Option (List Char × List Char)) :
    Nat → List Char → Option (List Char × List Char)
  | 0, _ => none
  | _ + 1, [] => none
  | fuel + 1, c :: cs =>
    match tryAt (c :: cs) with
    | some r => some r
    | none => searchA tryAt fuel cs

/-- Case-insensitive substring test (`re.search` of a literal under
`IGNORECASE`); the pattern is given lowercased. -/
def ciSubAux (pat : List Char) : List Char → Bool
  | [] => (ciLit pat []).isSome
  | c :: cs => (ciLit pat (c :: cs)).isSome || ciSubAux pat cs

/-- Case-insensitive substring test on strings. -/
def ciSubB (pat s : String) : Bool := ciSubAux pat.data s.data

/-- Case-sensitive substring test (Python `in` on `str`). -/
def subAux (pat : List Char) : List Char → Bool
  | [] => pat.isEmpty
  | c :: cs => pat.isPrefixOf (c :: cs) || subAux pat cs

/-- Case-sensitive substring test on strings. -/
def containsSub (pat s : String) : Bool := subAux pat.data s.data

end Matchers

section LinkClassifier

/-- `AZURE_E_RE.findall(md_text)`. -/
def findallE (md_text : String) : List String :=
  (pyFindall tryE md_text.data).map fun m => (⟨m⟩ : String)

/-- `CALC_ANY_RE.findall(md_text)`. -/
def findallCalc (md_text : String) : List String :=
  (pyFindall tryCalcAny md_text.data).map fun m => (⟨m⟩ : String)

/-- The characters stripped by `u.rstrip(').,;')`. -/
def puncCh (c : Char) : Bool := c = ')' || c = '.' || c = ',' || c = ';'

/-- Python `u.rstrip(').,;')`. -/
def rstripPunct (s : String) : String := ⟨rstripChars puncCh s.data⟩

/-- `CALC_ROOT_RE.match` on a string. -/
def calcRootS (s : String) : Bool := calcRootB s.data

/-- The partition loop of `categorize_links` (scan script lines 187–194):
route each calculator URL to the root bucket (right-stripped) or, when it is
not a shared-estimate URL, to the other bucket. -/
def partitionCalc (calc_shared : List String) :
    List String → List String × List String
  | [] => ([], [])
  | u :: rest =>
    let ro := partitionCalc calc_shared rest
    let uClean := rstripPunct u
    if calcRootS uClean ∧ ¬uClean.data.contains '?' ∧ ¬uClean.data.contains '#' then
      (uClean :: ro.1, ro.2)
    else if u ∈ calc_shared then ro
    else (ro.1, u :: ro.2)

/-- The record returned by `categorize_links`. -/
structure LinkBundle where
  azure_experience_links : List String
  calculator_root_links : List String
  calculator_shared_estimate_links : List String
  calculator_other_links : List String
  shared_estimate_links : List String
  pricing_calculator_links : List String
  all_matching_links : List String
  has_any_qualifying_links : Bool

/-- Embedding of `categorize_links` (scan script lines 182–212). -/
def categorize_links (md_text : String) : LinkBundle :=
  let azure_experience_links := pySortedSet (findallE md_text)
  let calc_any := pySortedSet (findallCalc md_text)
  let calc_shared :=
    pySortedSet (calc_any.filter fun u => ciSubB "shared-estimate=" u)
  let ro := partitionCalc calc_shared calc_any
  let calc_root := pySortedSet ro.1
  let calc_other := pySortedSet ro.2
  let shared_estimate_links := pySortedSet (azure_experience_links ++ calc_shared)
  let has_any :=
    !calc_root.isEmpty || !shared_estimate_links.isEmpty || !calc_other.isEmpty
  let all_matching_links := pySortedSet (azure_experience_links ++ calc_any)
  { azure_experience_links := azure_experience_links
    calculator_root_links := calc_root
    calculator_shared_estimate_links := calc_shared
    calculator_other_links := calc_other
    shared_estimate_links := shared_estimate_links
    pricing_calculator_links := calc_any
    all_matching_links := all_matching_links
    has_any_qualifying_links := has_any }

end LinkClassifier

section PickEstimateLink

/-- Full anchored match of `AZURE_EXPERIENCE_RE`:
`^https?://azure\.com/e/[^\s]+$` (inputs are stripped, so `$` is the end). -/
def expFullB (s : String) : Bool :=
  match ciLit ("http".data) s.data with
  | none => false
  | some (_, r1) =>
    let r2 := (optCh 's' r1).2
    match ciLit ("://azure.com/e/".data) r2 with
    | none => false
    | some (_, r3) =>
      let tok := r3.takeWhile fun c => !pyWs c
      !tok.isEmpty && (r3.drop tok.length).isEmpty

/-- Test for `[^\s]*lit[^\s]+$`: no whitespace anywhere and a
case-insensitive occurrence of `lit` with at least one character after it. -/
def queryTailB (lit : String) (r : List Char) : Bool :=
  r.all (fun c => !pyWs c) && hasProperOcc lit.data r
where
  /-- An occurrence of the lowercased pattern followed by a nonempty rest. -/
  hasProperOcc (pat : List Char) : List Char → Bool
    | [] => false
    | c :: cs =>
      (match ciLit pat (c :: cs) with
       | some (_, rest) => !rest.isEmpty
       | none => false) || hasProperOcc pat cs

/-- Common shape of `SHARED_ESTIMATE_RE` and `SERVICE_RE`: calculator prefix,
`/?\?`, then `[^\s]*lit[^\s]+$`. -/
def calcQueryFullB (lit : String) (s : String) : Bool :=
  match tryCalcPre s.data with
  | none => false
  | some (_, r) =>
    match r with
    | '/' :: '?' :: rest => queryTailB lit rest
    | '?' :: rest => queryTailB lit rest
    | _ => false

/-- Full anchored match of `SHARED_ESTIMATE_RE`. -/
def sharedEstimateFullB (s : String) : Bool := calcQueryFullB "shared-estimate=" s

/-- Full anchored match of `SERVICE_RE`. -/
def serviceFullB (s : String) : Bool := calcQueryFullB "service=" s

/-- The candidate lists consumed by `pick_estimate_link`, one field per key
of the build script's fixed key order. -/
structure PickItem where
  azure_experience_links : List String
  shared_estimate_links : List String
  pricing_calculator_links : List String
  all_matching_links : List String
  calculator_other_links : List String
  calculator_shared_estimate_links : List String
  calculator_root_links : List String

/-- Candidate flattening of `pick_estimate_link` (build script lines 32–46):
concatenate the lists in the fixed key order and strip each value. -/
def pickCandidates (it : PickItem) : List String :=
  (it.azure_experience_links ++ it.shared_estimate_links ++
    it.pricing_calculator_links ++ it.all_matching_links ++
    it.calculator_other_links ++ it.calculator_shared_estimate_links ++
    it.calculator_root_links).map pyStrip

/-- The normalize/dedupe loop of `pick_estimate_link` (lines 48–55): skip
empty and already-seen URLs, preserving first-seen order. -/
def dedupNE (seen : List String) : List String → List String
  | [] => []
  | u :: rest =>
    if u = "" ∨ u ∈ seen then dedupNE seen rest
    else u :: dedupNE (u :: seen) rest

/-- Embedding of `pick_estimate_link` (build script lines 22–66). -/
def pick_estimate_link (it : PickItem) : String :=
  let ordered := dedupNE [] (pickCandidates it)
  match ordered.find? expFullB with
  | some u => u
  | none =>
    match ordered.find? sharedEstimateFullB with
    | some u => u
    | none =>
      match ordered.find? serviceFullB with
      | some u => u
      | none => ""

end PickEstimateLink

section ImageDetector

/-- Python `str.splitlines` worker (line terminators: `\n`, `\r\n`, `\r`);
a trailing terminator does not produce a final empty line. -/
def splitLinesGo : Nat → List Char → List Char → List (List Char)
  | 0, acc, _ => [acc.reverse]
  | _ + 1, acc, [] => [acc.reverse]
  | fuel + 1, acc, c :: cs =>
    if c = '\n' then
      if cs.isEmpty then [acc.reverse]
      else acc.reverse :: splitLinesGo fuel [] cs
    else if c = '\r' then
      if cs.head? = some '\n' then
        if cs.tail.isEmpty then [acc.reverse]
        else acc.reverse :: splitLinesGo fuel [] cs.tail
      else
        if cs.isEmpty then [acc.reverse]
        else acc.reverse :: splitLinesGo fuel [] cs
    else splitLinesGo fuel (c :: acc) cs

/-- Python `str.splitlines` (`md_text.splitlines()`). -/
def splitLines (s : String) : List String :=
  match s.data with
  | [] => []
  | cs => (splitLinesGo (cs.length + 1) [] cs).map fun l => (⟨l⟩ : String)

/-- Embedding of `clean_ref` (scan script lines 79–80):
`ref.strip().strip('"').strip("'").strip().strip('()<>[]')`. -/
def clean_ref (ref : String) : String :=
  let s1 := stripChars pyWs ref.data
  let s2 := stripChars (fun c => c = chDq) s1
  let s3 := stripChars (fun c => c = chSq) s2
  let s4 := stripChars pyWs s3
  ⟨stripChars
    (fun c => c = '(' || c = ')' || c = '<' || c = '>' || c = '[' || c = ']') s4⟩

/-- Matcher for `REF_DEF_RE` at a line-start position:
`^\[([^\]]+)\]:\s*(\S+)`; returns the two groups and the rest. -/
def tryRefDef (s : List Char) : Option ((List Char × List Char) × List Char) :=
  match s with
  | '[' :: r1 =>
    let key := r1.takeWhile (· ≠ ']')
    if key.isEmpty then none
    else
      match r1.drop key.length with
      | ']' :: ':' :: r2 =>
        let tgt0 := r2.dropWhile pyWs
        let tgt := tgt0.takeWhile fun c => !pyWs c
        if tgt.isEmpty then none
        else some ((key, tgt), tgt0.drop tgt.length)
      | _ => none
  | _ => none

/-- `REF_DEF_RE.findall` under `re.MULTILINE`: attempts only at the start of
the text or right after a newline. -/
def scanRefDef : Nat → Bool → List Char → List (List Char × List Char)
  | 0, _, _ => []
  | _ + 1, _, [] => []
  | fuel + 1, atStart, c :: cs =>
    if atStart then
      match tryRefDef (c :: cs) with
      | some (pair, r) => pair :: scanRefDef fuel false r
      | none => scanRefDef fuel (c = '\n') cs
    else scanRefDef fuel (c = '\n') cs

/-- `REF_DEF_RE.findall(md_text)`. -/
def refDefFindall (md_text : String) : List (String × String) :=
  (scanRefDef (md_text.data.length + 1) true md_text.data).map
    fun p => ((⟨p.1⟩ : String), (⟨p.2⟩ : String))

/-- Python dict insertion with overwrite (only `get` is used downstream). -/
def mapInsert (m : List (String × String)) (k v : String) :
    List (String × String) :=
  if m.any fun p => p.1 == k then
    m.map fun p => if p.1 == k then (k, v) else p
  else m ++ [(k, v)]

/-- Embedding of `extract_reference_map` (lines 114–118). -/
def extract_reference_map (md_text : String) : List (String × String) :=
  (refDefFindall md_text).foldl
    (fun m p => mapInsert m (lowerS (pyStrip p.1)) (clean_ref p.2)) []

/-- Python `dict.get`. -/
def mapGet (m : List (String × String)) (k : String) : Option String :=
  (m.find? fun p => p.1 == k).map fun p => p.2

/-- A word character for `\b` (`[A-Za-z0-9_]`). -/
def isWordChar (c : Char) : Bool := c.isAlpha || c.isDigit || c = '_'

/-- `THUMB_EXCLUDE_RE.search` on an already-lowercased string:
`(/browse/thumbs/|\bthumbs/|thumbnail|social_image|/icons/)`. -/
def thumbGo : Nat → Option Char → List Char → Bool
  | 0, _, _ => false
  | _ + 1, _, [] => false
  | fuel + 1, prev, c :: cs =>
    ("/browse/thumbs/".data).isPrefixOf (c :: cs) ||
    ((match prev with | none => true | some p => !isWordChar p) &&
      ("thumbs/".data).isPrefixOf (c :: cs)) ||
    ("thumbnail".data).isPrefixOf (c :: cs) ||
    ("social_image".data).isPrefixOf (c :: cs) ||
    ("/icons/".data).isPrefixOf (c :: cs) ||
    thumbGo fuel (some c) cs

/-- `THUMB_EXCLUDE_RE.search` as a Bool (inputs are lowercased by the
caller, matching the source which lowercases before searching). -/
def thumbSearch (s : String) : Bool := thumbGo (s.data.length + 1) none s.data

/-- A word boundary to the right: end of text or a non-word character. -/
def wordEndOk : List Char → Bool
  | [] => true
  | c :: _ => !isWordChar c

/-- A literal alternative of `ARCH_HINT_RE` followed by `\b`. -/
def litThenBoundary (pat : List Char) (s : List Char) : Bool :=
  pat.isPrefixOf s && wordEndOk (s.drop pat.length)

/-- A two-word alternative `p1\s*p2` of `ARCH_HINT_RE` followed by `\b`. -/
def wsLit2Boundary (p1 p2 : List Char) (s : List Char) : Bool :=
  if p1.isPrefixOf s then
    let r := (s.drop p1.length).dropWhile pyWs
    p2.isPrefixOf r && wordEndOk (r.drop p2.length)
  else false

/-- A match of `ARCH_HINT_RE` at the current position (lowercased input):
`\b(architecture|diagram|reference\s*architecture|network\s*topology|dataflow)\b`. -/
def archHintAt (prev : Option Char) (s : List Char) : Bool :=
  (match prev with | none => true | some p => !isWordChar p) &&
    (litThenBoundary ("architecture".data) s ||
     litThenBoundary ("diagram".data) s ||
     wsLit2Boundary ("reference".data) ("architecture".data) s ||
     wsLit2Boundary ("network".data) ("topology".data) s ||
     litThenBoundary ("dataflow".data) s)

/-- `ARCH_HINT_RE.search` scan. -/
def archHintGo : Nat → Option Char → List Char → Bool
  | 0, _, _ => false
  | _ + 1, _, [] => false
  | fuel + 1, prev, c :: cs => archHintAt prev (c :: cs) || archHintGo fuel (some c) cs

/-- `ARCH_HINT_RE.search` as a Bool, on an already-lowercased string. -/
def archHintSearch (s : String) : Bool :=
  archHintGo (s.data.length + 1) none s.data

/-- The fixed reference-key vocabulary of `is_likely_architecture_image`
(line 130). -/
def keyVocab : List String :=
  ["architecture", "arch", "architecturediagram", "architecture-diagram", "diagram"]

/-- Python `p.split('/')[-1]`. -/
def lastSeg (s : String) : String :=
  ⟨(s.data.reverse.takeWhile (· ≠ '/')).reverse⟩

/-- Embedding of `is_likely_architecture_image` (lines 121–140). -/
def is_likely_architecture_image (img_path context_line : String)
    (ref_key : Option String) : Bool :=
  let p := lowerS img_path
  let line := lowerS context_line
  let key := lowerS (ref_key.getD "")
  if thumbSearch p || thumbSearch line then false
  else if containsSub ":::image" line then true
  else if key ∈ keyVocab then true
  else if archHintSearch line then true
  else
    let fname := lastSeg p
    if archHintSearch fname then true
    else if (containsSub "/_images/" p || containsSub "/images/" p ||
        containsSub "/media/" p) && archHintSearch fname then true
    else false

/-- A quote character of `HTML_IMG_RE` (`[\\\"']`). -/
def isQuoteCh (c : Char) : Bool := c = chBs || c = chDq || c = chSq

/-- The quote plus captured group `[\\\"']([^\\\"']+\.(?:ext))`. -/
def tryQuoteGroup (s : List Char) : Option (List Char × List Char) :=
  match s with
  | q :: r =>
    if isQuoteCh q then
      let run := r.takeWhile fun c => !isQuoteCh c
      match extGroupGo run (run.length - 1) with
      | some g => some (g, r.drop g.length)
      | none => none
    else none
  | [] => none

/-- Backtracking over the greedy `[^>]+` of `HTML_IMG_RE`: try the latest
viable `src=` first. The argument is the candidate offset of `src=` after
`<img`. -/
def goSrc (rest0 : List Char) : Nat → Option (List Char × List Char)
  | 0 => none
  | o + 1 =>
    match ciLit ("src=".data) (rest0.drop (o + 1)) with
    | some (_, r2) =>
      match tryQuoteGroup r2 with
      | some gr => some gr
      | none => goSrc rest0 o
    | none => goSrc rest0 o

/-- Matcher for `HTML_IMG_RE` at the current position:
`<img[^>]+src=[\\\"']([^\\\"']+\.(?:svg|png|jpg|jpeg))`, case-insensitive;
returns the captured group. -/
def tryHtmlImg (s : List Char) : Option (List Char × List Char) :=
  match ciLit ("<img".data) s with
  | none => none
  | some (_, rest0) =>
    let regionLen := (rest0.takeWhile (· ≠ '>')).length
    if regionLen < 5 then none
    else goSrc rest0 (regionLen - 4)

/-- Matcher for `REF_USE_RE` at the current position:
`!\[[^\]]*\]\[([^\]]+)\]`; returns the captured key. -/
def tryRefUse (s : List Char) : Option (List Char × List Char) :=
  match s with
  | '!' :: '[' :: r1 =>
    let alt := r1.takeWhile (· ≠ ']')
    match r1.drop alt.length with
    | ']' :: '[' :: r2 =>
      let key := r2.takeWhile (· ≠ ']')
      if key.isEmpty then none
      else
        match r2.drop key.length with
        | ']' :: r3 => some (key, r3)
        | _ => none
    | _ => none
  | _ => none

/-- One extracted image candidate: stored path, reference key (third pass
only) and context line. -/
structure Found where
  raw : String
  key : Option String
  line : String
deriving DecidableEq

/-- `IMAGE_PATH_RE.findall(line)`. -/
def imgPathMatches (line : String) : List String :=
  (pyFindall tryImgPath line.data).map fun m => (⟨m⟩ : String)

/-- `HTML_IMG_RE.findall(line)` (captured groups). -/
def htmlImgMatches (line : String) : List String :=
  (pyFindall tryHtmlImg line.data).map fun m => (⟨m⟩ : String)

/-- `REF_USE_RE.findall(line)` (captured keys). -/
def refUseMatches (line : String) : List String :=
  (pyFindall tryRefUse line.data).map fun m => (⟨m⟩ : String)

/-- Case-insensitive suffix test. -/
def endsWithCi (pat s : String) : Bool :=
  (pat.data.reverse).isPrefixOf ((lowerL s.data).reverse)

/-- `re.search(rf"\.(?:{IMG_EXT_RE})$", target, re.IGNORECASE)` as a
suffix test. -/
def endsWithExt (t : String) : Bool :=
  endsWithCi ".svg" t || endsWithCi ".png" t || endsWithCi ".jpg" t ||
    endsWithCi ".jpeg" t

/-- First extraction pass (lines 148–152), inner loop over the matches of
one line. -/
def pass1Line (line : String) : List String → List Found
  | [] => []
  | raw :: rest =>
    let raw2 := clean_ref raw
    if is_likely_architecture_image raw2 line none then
      ⟨raw2, none, line⟩ :: pass1Line line rest
    else pass1Line line rest

/-- First extraction pass over all lines. -/
def pass1 : List String → List Found
  | [] => []
  | line :: rest => pass1Line line (imgPathMatches line) ++ pass1 rest

/-- Second extraction pass (lines 154–158), inner loop. -/
def pass2Line (line : String) : List String → List Found
  | [] => []
  | raw :: rest =>
    let raw2 := clean_ref raw
    if is_likely_architecture_image raw2 line none then
      ⟨raw2, none, line⟩ :: pass2Line line rest
    else pass2Line line rest

/-- Second extraction pass over all lines. -/
def pass2 : List String → List Found
  | [] => []
  | line :: rest => pass2Line line (htmlImgMatches line) ++ pass2 rest

/-- Third extraction pass (lines 160–169), inner loop over the
reference-style uses of one line. -/
def pass3Line (refMap : List (String × String)) (line : String) :
    List String → List Found
  | [] => []
  | rkey :: rest =>
    let key_l := lowerS (pyStrip rkey)
    match mapGet refMap key_l with
    | some target =>
      if target = "" then pass3Line refMap line rest
      else if !endsWithExt target then pass3Line refMap line rest
      else if is_likely_architecture_image target line (some key_l) then
        ⟨target, some key_l, line⟩ :: pass3Line refMap line rest
      else pass3Line refMap line rest
    | none => pass3Line refMap line rest

/-- Third extraction pass over all lines. -/
def pass3 (refMap : List (String × String)) : List String → List Found
  | [] => []
  | line :: rest => pass3Line refMap line (refUseMatches line) ++ pass3 refMap rest

/-- The final dedup of `find_architecture_images` (lines 171–178), keyed by
the lowercased path, first occurrence kept. -/
def dedupFound (seen : List String) : List Found → List Found
  | [] => []
  | it :: rest =>
    if lowerS it.raw ∈ seen then dedupFound seen rest
    else it :: dedupFound (lowerS it.raw :: seen) rest

/-- Embedding of `find_architecture_images` (lines 143–179). -/
def find_architecture_images (md_text : String) : List Found :=
  let lines := splitLines md_text
  let refMap := extract_reference_map md_text
  dedupFound [] (pass1 lines ++ pass2 lines ++ pass3 refMap lines)

end ImageDetector

section Resolver

/-- An ASCII letter, for the scheme test `^[a-zA-Z]+://`. -/
def asciiAlpha (c : Char) : Bool :=
  (97 ≤ c.toNat && c.toNat ≤ 122) || (65 ≤ c.toNat && c.toNat ≤ 90)

/-- Test for `re.match(r"^[a-zA-Z]+://", ref)`. -/
def isSchemeRef (s : String) : Bool :=
  let run := s.data.takeWhile asciiAlpha
  !run.isEmpty && ("://".data).isPrefixOf (s.data.drop run.length)

/-- Python `while ref.startswith('./'): ref = ref[2:]`. -/
def stripDotSlash : List Char → List Char
  | '.' :: '/' :: rest => stripDotSlash rest
  | cs => cs

/-- One step of `Path.resolve()` normalization: empty and `.` segments
vanish, `..` pops one segment (staying at the filesystem root on an empty
stack), anything else is appended. -/
def normStep (acc : List String) (seg : String) : List String :=
  if seg = "" ∨ seg = "." then acc
  else if seg = ".." then acc.dropLast
  else acc ++ [seg]

/-- Lexical normalization of an absolute path given as segments
(`Path.resolve()` without symlinks). -/
def normJoin (segs : List String) : List String := segs.foldl normStep []

/-- Split on `/`, keeping empty pieces (they are dropped by `normStep`,
as `pathlib` drops empty and `.` parts). -/
def splitSlash : List Char → List (List Char)
  | [] => [[]]
  | c :: cs =>
    if c = '/' then [] :: splitSlash cs
    else
      match splitSlash cs with
      | [] => [[c]]
      | s :: ss => (c :: s) :: ss

/-- Path segments of a reference string. -/
def refSegs (r : List Char) : List String :=
  (splitSlash r).map fun l => (⟨l⟩ : String)

/-- Join segments with `/` (`PurePath.as_posix()`). -/
def joinSlash : List String → String
  | [] => ""
  | [x] => x
  | x :: y :: rest => x ++ "/" ++ joinSlash (y :: rest)

/-- Embedding of `resolve_repo_rel` (scan script lines 83–95). Directories
are modeled as absolute, already-normalized segment lists; `resolve()` is
lexical (no symlinks), and a failing `relative_to` is the `none` branch. -/
def resolve_repo_rel (base_dir : List String) (ref : String)
    (repo_root : List String) : Option String :=
  let r0 := clean_ref ref
  if isSchemeRef r0 then none
  else
    let r1 := stripDotSlash r0.data
    let r2 := r1.dropWhile (· = '/')
    let p := normJoin (base_dir ++ refSegs r2)
    if repo_root.isPrefixOf p then
      let rest := p.drop repo_root.length
      some (if rest.isEmpty then "." else joinSlash rest)
    else none

end Resolver

section Evaluator

/-- Model of the values produced by `yaml.safe_load`. -/
inductive YVal where
  | null : YVal
  | bool (b : Bool) : YVal
  | num (n : Int) : YVal
  | str (s : String) : YVal
  | list (items : List YVal) : YVal
  | dict (fields : List (String × YVal)) : YVal

/-- Python truthiness for the modeled values. -/
def truthy : YVal → Bool
  | .null => false
  | .bool b => b
  | .num n => decide (n ≠ 0)
  | .str s => decide (s ≠ "")
  | .list items => !items.isEmpty
  | .dict fields => !fields.isEmpty

/-- Python `dict.get(k)` (`None` when the key is absent). -/
def getY (d : List (String × YVal)) (k : String) : YVal :=
  match d.find? fun p => p.1 == k with
  | some p => p.2
  | none => .null

/-- Python `a or b`. -/
def pyOr (a b : YVal) : YVal := if truthy a then a else b

/-- Embedding of `as_list` (lines 52–57). -/
def as_list : YVal → List YVal
  | .null => []
  | .list items => items
  | v => [v]

/-- The result quintuple of `extract_yaml_meta` (lines 215–222). -/
structure YmlMeta where
  title : YVal
  description : YVal
  azureCategories : List YVal
  author : YVal
  ms_author : YVal

/-- Embedding of `extract_yaml_meta`. -/
def extract_yaml_meta (data : List (String × YVal)) : YmlMeta :=
  let meta :=
    match getY data "metadata" with
    | .dict m => m
    | _ => []
  { title := pyOr (getY meta "title") (getY data "title")
    description := pyOr (getY meta "description") (getY data "description")
    azureCategories := as_list (getY data "azureCategories")
    author := pyOr (getY meta "author") (getY data "author")
    ms_author := pyOr (getY meta "ms.author") (getY data "ms.author") }

/-- Python `lstrip('/')` on a string. -/
def lstripSlash (s : String) : String := ⟨s.data.dropWhile (· = '/')⟩

/-- Embedding of `make_raw_url` (lines 60–61). -/
def make_raw_url (repo_slug branch repo_rel_path : String) : String :=
  "https://raw.githubusercontent.com/" ++ repo_slug ++ "/" ++ branch ++ "/" ++
    lstripSlash repo_rel_path

/-- Embedding of `make_github_blob_url` (lines 64–65). -/
def make_github_blob_url (repo_slug branch repo_rel_path : String) : String :=
  "https://github.com/" ++ repo_slug ++ "/blob/" ++ branch ++ "/" ++
    lstripSlash repo_rel_path

/-- Embedding of `make_learn_url_from_docs_path` (lines 68–76). -/
def make_learn_url_from_docs_path (repo_rel_yml : String) : String :=
  let p0 : List Char := repo_rel_yml.data.map fun c => if c = chBs then '/' else c
  let p1 := if ("docs/".data).isPrefixOf p0 then p0.drop 5 else p0
  let low := lowerL p1
  let p2 :=
    if (".yml".data.reverse).isPrefixOf low.reverse then p1.take (p1.length - 4)
    else if (".yaml".data.reverse).isPrefixOf low.reverse then p1.take (p1.length - 5)
    else p1
  "https://learn.microsoft.com/en-us/azure/architecture/" ++ (⟨p2⟩ : String)

/-- First index of a substring (Python `str.find`). -/
def findSub (pat : List Char) : List Char → Option Nat
  | [] => if pat.isEmpty then some 0 else none
  | c :: cs =>
    if pat.isPrefixOf (c :: cs) then some 0
    else (findSub pat cs).map (· + 1)

/-- Embedding of `parse_md_front_matter` (lines 98–111); `yaml.safe_load`
is the external loader argument. -/
def parse_md_front_matter (safeLoad : String → Option YVal) (md_text : String) :
    List (String × YVal) :=
  if ("---".data).isPrefixOf md_text.data then
    match findSub ("\n---".data) (md_text.data.drop 3) with
    | none => []
    | some i =>
      match safeLoad (⟨(md_text.data.drop 3).take i⟩ : String) with
      | some (.dict d) => d
      | _ => []
  else []

/-- Matcher for `INCLUDE_RE` at the current position:
`\[!INCLUDE\s*\[\s*\]\s*\(\s*([^\)\s]+\.md)\s*\)\s*\]`, case-insensitive;
returns the captured group and the rest. -/
def tryInclude (s : List Char) : Option (List Char × List Char) :=
  match s with
  | '[' :: '!' :: r0 =>
    match ciLit ("include".data) r0 with
    | none => none
    | some (_, r1) =>
      match r1.dropWhile pyWs with
      | '[' :: r2 =>
        match r2.dropWhile pyWs with
        | ']' :: r3 =>
          match r3.dropWhile pyWs with
          | '(' :: r4 =>
            let r5 := r4.dropWhile pyWs
            let run := r5.takeWhile fun c => !(pyWs c || c = ')')
            if run.length < 4 then none
            else if !((".md".data.reverse).isPrefixOf (lowerL run).reverse) then none
            else
              match (r5.drop run.length).dropWhile pyWs with
              | ')' :: r6 =>
                match r6.dropWhile pyWs with
                | ']' :: r7 => some (run, r7)
                | _ => none
              | _ => none
          | _ => none
        | _ => none
      | _ => none
  | _ => none

/-- `INCLUDE_RE.search(content)`, returning `group(1)`. -/
def includeSearch (content : String) : Option String :=
  (searchA tryInclude (content.data.length + 1) content.data).map
    fun m => (⟨m.1⟩ : String)

/-- The emitted record (the `base` dict of `scan`, lines 250–278). -/
structure Record where
  criteria_passed : Bool
  failure_reason : String
  title : YVal
  description : YVal
  azureCategories : List YVal
  yml_url : String
  yml_github_url : String
  yml_path : String
  include_md_path : Option String
  include_md_github_url : Option String
  md_author_github : YVal
  md_ms_author : YVal
  architecture_image_heuristic : Bool
  image_paths : List String
  image_download_urls : List String
  image_exists_in_repo : List Bool
  image_formats : List (Option String)
  svg_paths : List String
  svg_download_urls : List String
  svg_exists_in_repo : List Bool
  azure_experience_links : List String
  calculator_root_links : List String
  calculator_shared_estimate_links : List String
  calculator_other_links : List String
  pricing_calculator_links : List String
  shared_estimate_links : List String
  all_matching_links : List String

/-- The per-document inputs of the `scan` loop body: identity of the YAML
file, the parsed YAML value (result of `load_yaml`), and the external
collaborators (filesystem probe keyed by repo-relative path, file reader,
front-matter loader). -/
structure ScanArgs where
  repo_slug : String
  branch : String
  repo_root : List String
  yml_dir : List String
  repo_rel_yml : String
  yamlData : Option YVal
  fsExists : String → Bool
  readFile : String → String
  safeLoad : String → Option YVal

/-- The last piece of `img_ref.split('.')`. -/
def lastDotSeg (s : String) : String :=
  ⟨(s.data.reverse.takeWhile (· ≠ '.')).reverse⟩

/-- The format field: `img_ref.split('.')[-1].lower() if '.' in img_ref
else None` (line 389). -/
def fmtOf (img_ref : String) : Option String :=
  if img_ref.data.contains '.' then some (lowerS (lastDotSeg img_ref))
  else none

/-- The image lists built by the loop of `scan` (lines 384–403). -/
structure ImagesOut where
  image_paths : List String
  image_download_urls : List String
  image_exists_in_repo : List Bool
  image_formats : List (Option String)
  svg_paths : List String
  svg_download_urls : List String
  svg_exists_in_repo : List Bool

/-- The image loop of `scan`: one contribution per accepted image, in
order. -/
def processImages (a : ScanArgs) (md_dir : List String) :
    List Found → ImagesOut
  | [] => ⟨[], [], [], [], [], [], []⟩
  | f :: rest =>
    let o := processImages a md_dir rest
    let img_ref := clean_ref f.raw
    let fmt := fmtOf img_ref
    let img_rel :=
      match resolve_repo_rel md_dir img_ref a.repo_root with
      | some rel => rel
      | none => lstripSlash (pyStrip img_ref)
    let url := make_raw_url a.repo_slug a.branch img_rel
    let ex := a.fsExists img_rel
    { image_paths := img_rel :: o.image_paths
      image_download_urls := url :: o.image_download_urls
      image_exists_in_repo := ex :: o.image_exists_in_repo
      image_formats := fmt :: o.image_formats
      svg_paths := if fmt = some "svg" then img_rel :: o.svg_paths else o.svg_paths
      svg_download_urls :=
        if fmt = some "svg" then url :: o.svg_download_urls else o.svg_download_urls
      svg_exists_in_repo :=
        if fmt = some "svg" then ex :: o.svg_exists_in_repo else o.svg_exists_in_repo }

/-- Path segments of a repo-relative path string (`pathlib` drops empty and
`.` parts). -/
def pathSegs (s : String) : List String :=
  ((splitSlash s.data).map fun l => (⟨l⟩ : String)).filter
    fun seg => !(seg == "" || seg == ".")

/-- Embedding of the per-document body of `scan` (lines 247–417): the
record appended to `results` for one YAML file. -/
def processDoc (a : ScanArgs) : Record :=
  let base : Record := {
    criteria_passed := false
    failure_reason := ""
    title := .null
    description := .null
    azureCategories := []
    yml_url := make_learn_url_from_docs_path a.repo_rel_yml
    yml_github_url := make_github_blob_url a.repo_slug a.branch a.repo_rel_yml
    yml_path := a.repo_rel_yml
    include_md_path := none
    include_md_github_url := none
    md_author_github := .null
    md_ms_author := .null
    architecture_image_heuristic := false
    image_paths := []
    image_download_urls := []
    image_exists_in_repo := []
    image_formats := []
    svg_paths := []
    svg_download_urls := []
    svg_exists_in_repo := []
    azure_experience_links := []
    calculator_root_links := []
    calculator_shared_estimate_links := []
    calculator_other_links := []
    pricing_calculator_links := []
    shared_estimate_links := []
    all_matching_links := [] }
  match a.yamlData with
  | some (.dict data) =>
    let em := extract_yaml_meta data
    let base := { base with
      title := em.title
      description := em.description
      azureCategories := em.azureCategories }
    match getY data "content" with
    | .str content =>
      match includeSearch content with
      | some include_md_ref =>
        match resolve_repo_rel a.yml_dir include_md_ref a.repo_root with
        | some include_md_rel =>
          let base := { base with
            include_md_path := some include_md_rel
            include_md_github_url :=
              some (make_github_blob_url a.repo_slug a.branch include_md_rel) }
          if a.fsExists include_md_rel then
            let md_text := a.readFile include_md_rel
            let fm := parse_md_front_matter a.safeLoad md_text
            let base := { base with
              md_author_github := pyOr (getY fm "author") em.author
              md_ms_author := pyOr (getY fm "ms.author") em.ms_author }
            let li := categorize_links md_text
            let base := { base with
              azure_experience_links := li.azure_experience_links
              calculator_root_links := li.calculator_root_links
              calculator_shared_estimate_links := li.calculator_shared_estimate_links
              calculator_other_links := li.calculator_other_links
              pricing_calculator_links := li.pricing_calculator_links
              shared_estimate_links := li.shared_estimate_links
              all_matching_links := li.all_matching_links }
            let arch_imgs := find_architecture_images md_text
            if !li.has_any_qualifying_links then
              { base with failure_reason := "no_matching_links" }
            else if arch_imgs.isEmpty then
              { base with failure_reason := "no_architecture_images" }
            else
              let md_dir := a.repo_root ++ (pathSegs include_md_rel).dropLast
              let io := processImages a md_dir arch_imgs
              { base with
                criteria_passed := true
                failure_reason := ""
                architecture_image_heuristic := true
                image_paths := io.image_paths
                image_download_urls := io.image_download_urls
                image_exists_in_repo := io.image_exists_in_repo
                image_formats := io.image_formats
                svg_paths := io.svg_paths
                svg_download_urls := io.svg_download_urls
                svg_exists_in_repo := io.svg_exists_in_repo }
          else { base with failure_reason := "include_md_missing" }
        | none =>
          { base with
            failure_reason := "include_md_unresolvable"
            include_md_path := some include_md_ref }
      | none => { base with failure_reason := "no_include_directive" }
    | _ => { base with failure_reason := "missing_content_string" }
  | _ => { base with failure_reason := "yaml_parse_failed" }

end Evaluator

section Helpers

theorem mem_of_mem_takeWhile {p : Char → Bool} {l : List Char} {c : Char}
    (h : c ∈ l.takeWhile p) : c ∈ l ∧ p c = true := by
  induction l with
  | nil => simp [List.takeWhile] at h
  | cons x xs ih =>
    rw [List.takeWhile] at h
    cases hx : p x with
    | false => rw [hx] at h; simp at h
    | true =>
      rw [hx] at h
      rcases List.mem_cons.mp h with rfl | h2
      · exact ⟨List.mem_cons_self _ _, hx⟩
      · exact ⟨List.mem_cons_of_mem _ (ih h2).1, (ih h2).2⟩

theorem takeWhile_eq_self {p : Char → Bool} {l : List Char}
    (h : ∀ c ∈ l, p c = true) : l.takeWhile p = l := by
  induction l with
  | nil => rfl
  | cons x xs ih =>
    rw [List.takeWhile, h x (List.mem_cons_self _ _)]
    rw [ih fun c hc => h c (List.mem_cons_of_mem _ hc)]

theorem dropWhile_eq_self {p : Char → Bool} {l : List Char}
    (h : ∀ c ∈ l, p c = false) : l.dropWhile p = l := by
  cases l with
  | nil => rfl
  | cons x xs => rw [List.dropWhile, h x (List.mem_cons_self _ _)]

theorem mem_of_mem_dropWhile {p : Char → Bool} {l : List Char} {c : Char}
    (h : c ∈ l.dropWhile p) : c ∈ l :=
  (List.dropWhile_sublist p).subset h

theorem mem_of_mem_rstripChars {p : Char → Bool} {l : List Char} {c : Char}
    (h : c ∈ rstripChars p l) : c ∈ l := by
  rw [rstripChars, List.mem_reverse] at h
  exact List.mem_reverse.mp (mem_of_mem_dropWhile h)

theorem rstripChars_eq_self {p : Char → Bool} {l : List Char} {la : Char}
    (hl : l.getLast? = some la) (hp : p la = false) : rstripChars p l = l := by
  rw [rstripChars]
  have hrev : l.reverse.head? = some la := by
    rw [List.head?_reverse]; exact hl
  cases hr : l.reverse with
  | nil => rw [hr] at hrev; simp at hrev
  | cons x xs =>
    rw [hr] at hrev
    simp only [List.head?] at hrev
    injection hrev with hx
    subst hx
    rw [List.dropWhile, hp, ← hr, List.reverse_reverse]

/-- The complement of `tokenChar` consists of whitespace and delimiter
characters, all fixed by `Char.toLower`. -/
theorem toLower_eq_self_of_not_token {c : Char} (h : tokenChar c = false) :
    c.toLower = c := by
  simp only [tokenChar, pyWs, chBs, chDq, chSq, Bool.not_eq_false',
    Bool.or_eq_true, decide_eq_true_eq] at h
  rcases h with ⟨⟨⟨⟨⟨⟨⟨⟨⟨h | h⟩ | h⟩ | h⟩ | h⟩ | h⟩ | h⟩ | h⟩ | h⟩ | h⟩ | h <;>
    subst h <;> decide

theorem string_ne_empty_of_data {s : String} (h : s.data ≠ []) : s ≠ "" := by
  intro he
  apply h
  rw [he]

/-- Strings whose characters all satisfy `tokenChar` are fixed by
`str.strip()`. -/
theorem pyStrip_eq_self {s : String} (h : ∀ c ∈ s.data, tokenChar c = true) :
    pyStrip s = s := by
  have hw : ∀ c ∈ s.data, pyWs c = false := by
    intro c hc
    have := h c hc
    rw [tokenChar] at this
    cases hws : pyWs c with
    | false => rfl
    | true => rw [hws] at this; simp at this
  rw [pyStrip, stripChars, dropWhile_eq_self hw]
  rw [dropWhile_eq_self fun c hc => hw c (List.mem_reverse.mp hc)]
  cases s
  simp

end Helpers

section MatcherInversion

theorem ciLit_eq {pat s m r : List Char} (h : ciLit pat s = some (m, r)) :
    s = m ++ r ∧ m.map Char.toLower = pat := by
  induction pat generalizing s m r with
  | nil =>
    rw [ciLit] at h
    injection h with h2
    injection h2 with hm hr
    subst hm; subst hr
    exact ⟨rfl, rfl⟩
  | cons p ps ih =>
    cases s with
    | nil => rw [ciLit] at h; exact absurd h (by simp)
    | cons c cs =>
      rw [ciLit] at h
      by_cases hc : c.toLower = p
      · rw [if_pos hc] at h
        cases hrec : ciLit ps cs with
        | none => rw [hrec] at h; exact absurd h (by simp)
        | some pr =>
          rw [hrec] at h
          obtain ⟨m2, r2⟩ := pr
          injection h with h2
          injection h2 with hm hr
          subst hm; subst hr
          obtain ⟨he, hmap⟩ := ih hrec
          exact ⟨by rw [List.cons_append, ← he], by rw [List.map_cons, hmap, hc]⟩
      · rw [if_neg hc] at h
        exact absurd h (by simp)

theorem ciLit_append {pat m : List Char} (r : List Char)
    (h : m.map Char.toLower = pat) : ciLit pat (m ++ r) = some (m, r) := by
  induction m generalizing pat with
  | nil => rw [← h]; rfl
  | cons c cs ih =>
    rw [← h]
    rw [List.map_cons, List.cons_append, ciLit, if_pos rfl, ih rfl]

theorem optCh_spec {p : Char} {l m r : List Char} (h : optCh p l = (m, r)) :
    (m = [] ∧ r = l) ∨ (∃ c, m = [c] ∧ c.toLower = p ∧ l = c :: r) := by
  cases l with
  | nil =>
    rw [optCh] at h
    injection h with hm hr
    exact Or.inl ⟨hm.symm, hr.symm⟩
  | cons c cs =>
    rw [optCh] at h
    by_cases hc : c.toLower = p
    · rw [if_pos hc] at h
      injection h with hm hr
      exact Or.inr ⟨c, hm.symm, hc, by rw [hr]⟩
    · rw [if_neg hc] at h
      injection h with hm hr
      exact Or.inl ⟨hm.symm, hr.symm⟩

/-- Character-level facts transported through a case-insensitive literal:
if every pattern character satisfies `tokenChar`, so does every matched
character. -/
theorem tokenChar_of_map_toLower {pat m : List Char}
    (hpat : ∀ p ∈ pat, tokenChar p = true)
    (hm : m.map Char.toLower = pat) : ∀ c ∈ m, tokenChar c = true := by
  intro c hc
  cases ht : tokenChar c with
  | true => rfl
  | false =>
    exfalso
    have h1 : c.toLower = c := toLower_eq_self_of_not_token ht
    have h2 : c.toLower ∈ pat := by
      rw [← hm]
      exact List.mem_map_of_mem _ hc
    rw [h1] at h2
    rw [hpat c h2] at ht
    exact absurd ht (by simp)

end MatcherInversion

section ScanInvariants

/-- Any property of single matches is a property of every `findall`
result. -/
theorem scanA_inv (tryAt : List Char → Option (List Char × List Char))
    (P : List Char → Prop)
    (h : ∀ s m r, tryAt s = some (m, r) → P m) :
    ∀ (fuel : Nat) (cs : List Char), ∀ m ∈ scanA tryAt fuel cs, P m := by
  intro fuel
  induction fuel with
  | zero => intro cs m hm; simp [scanA] at hm
  | succ n ih =>
    intro cs m hm
    cases cs with
    | nil => simp [scanA] at hm
    | cons c cs2 =>
      rw [scanA] at hm
      cases htry : tryAt (c :: cs2) with
      | none => rw [htry] at hm; exact ih _ _ hm
      | some pr =>
        obtain ⟨mm, rr⟩ := pr
        rw [htry] at hm
        rcases List.mem_cons.mp hm with rfl | hm2
        · exact h _ _ _ htry
        · exact ih _ _ hm2

/-- Full structural shape of an `AZURE_E_RE` match. -/
def eShape (m : List Char) : Prop :=
  ∃ c1 c2 c3 tok, m = c1 ++ (c2 ++ (c3 ++ tok)) ∧
    c1.map Char.toLower = "http".data ∧
    (c2 = [] ∨ c2.map Char.toLower = ['s']) ∧
    c3.map Char.toLower = "://azure.com/e/".data ∧
    tok ≠ [] ∧ ∀ c ∈ tok, tokenChar c = true

/-- Lowercased-prefix shape of an experience link. -/
def eShapeP (m : List Char) : Prop :=
  ∃ t, lowerL m = ("http://azure.com/e/".data) ++ t ∨
    lowerL m = ("https://azure.com/e/".data) ++ t

/-- Lowercased-prefix shape of a pricing-calculator link. -/
def calcShapeP (m : List Char) : Prop :=
  ∃ t, lowerL m = ("http://azure.microsoft.com/".data) ++ t ∨
    lowerL m = ("https://azure.microsoft.com/".data) ++ t

theorem tryE_some {s m r : List Char} (h : tryE s = some (m, r)) : eShape m := by
  rw [tryE] at h
  cases h1 : ciLit ("http".data) s with
  | none => rw [h1] at h; exact absurd h (by simp)
  | some pr1 =>
    obtain ⟨c1, r1⟩ := pr1
    rw [h1] at h
    dsimp only at h
    rcases hoc : optCh 's' r1 with ⟨c2, r2⟩
    rw [hoc] at h
    dsimp only at h
    cases h3 : ciLit ("://azure.com/e/".data) r2 with
    | none => rw [h3] at h; exact absurd h (by simp)
    | some pr3 =>
      obtain ⟨c3, r3⟩ := pr3
      rw [h3] at h
      dsimp only at h
      by_cases hemp : (r3.takeWhile tokenChar).isEmpty
      · rw [if_pos hemp] at h; exact absurd h (by simp)
      · rw [if_neg hemp] at h
        injection h with h4
        injection h4 with hm hr
        refine ⟨c1, c2, c3, r3.takeWhile tokenChar, ?_, (ciLit_eq h1).2, ?_,
          (ciLit_eq h3).2, ?_, fun c hc => (mem_of_mem_takeWhile hc).2⟩
        · rw [← hm]; simp [List.append_assoc]
        · rcases optCh_spec hoc with ⟨he, _⟩ | ⟨c, he, hcl, _⟩
          · exact Or.inl he
          · exact Or.inr (by rw [he, List.map_cons, hcl]; rfl)
        · intro he
          rw [he] at hemp
          exact hemp rfl

theorem eShape_token {m : List Char} (h : eShape m) :
    ∀ c ∈ m, tokenChar c = true := by
  obtain ⟨c1, c2, c3, tok, hm, h1, h2, h3, _, htok⟩ := h
  intro c hc
  rw [hm] at hc
  rcases List.mem_append.mp hc with hc | hc
  · exact tokenChar_of_map_toLower (by decide) h1 c hc
  rcases List.mem_append.mp hc with hc | hc
  · rcases h2 with h2 | h2
    · rw [h2] at hc; simp at hc
    · exact tokenChar_of_map_toLower (by decide) h2 c hc
  rcases List.mem_append.mp hc with hc | hc
  · exact tokenChar_of_map_toLower (by decide) h3 c hc
  · exact htok c hc

theorem eShape_shapeP {m : List Char} (h : eShape m) : eShapeP m := by
  obtain ⟨c1, c2, c3, tok, hm, h1, h2, h3, _, _⟩ := h
  subst hm
  rcases h2 with h2 | h2
  · refine ⟨lowerL tok, Or.inl ?_⟩
    rw [h2]
    simp only [lowerL, List.map_append, List.map_nil, List.nil_append]
    rw [show List.map Char.toLower c1 = "http".data from h1,
      show List.map Char.toLower c3 = "://azure.com/e/".data from h3]
    rfl
  · refine ⟨lowerL tok, Or.inr ?_⟩
    simp only [lowerL, List.map_append]
    rw [show List.map Char.toLower c1 = "http".data from h1,
      show List.map Char.toLower c2 = ['s'] from h2,
      show List.map Char.toLower c3 = "://azure.com/e/".data from h3]
    rfl

theorem eShapeP_ne_nil {m : List Char} (h : eShapeP m) : m ≠ [] := by
  obtain ⟨t, h | h⟩ := h <;> intro he <;> subst he <;> simp [lowerL] at h

theorem not_token_cases {c : Char} (h : tokenChar c = false) :
    c = ' ' ∨ c = '\t' ∨ c = '\n' ∨ c = '\r' ∨ c = Char.ofNat 11 ∨
    c = Char.ofNat 12 ∨ c = ')' ∨ c = ']' ∨ c = Char.ofNat 92 ∨
    c = Char.ofNat 34 ∨ c = Char.ofNat 39 := by
  simp only [tokenChar, pyWs, chBs, chDq, chSq, Bool.not_eq_false',
    Bool.or_eq_true, decide_eq_true_eq] at h
  rcases h with ⟨⟨⟨⟨⟨⟨⟨⟨⟨h | h⟩ | h⟩ | h⟩ | h⟩ | h⟩ | h⟩ | h⟩ | h⟩ | h⟩ | h <;>
    subst h <;> simp

theorem tokenChar_of_letterCi {c : Char} (h : letterCi c = true) :
    tokenChar c = true := by
  cases ht : tokenChar c with
  | true => rfl
  | false =>
    exfalso
    rcases not_token_cases ht with h2 | h2 | h2 | h2 | h2 | h2 | h2 | h2 | h2 | h2 | h2 <;>
      subst h2 <;> exact absurd h (by decide)

/-- Shape of the matched locale segment `[a-z]{2}-[a-z]{2}/`. -/
def localeShape (mid : List Char) : Prop :=
  ∃ a b e f, mid = [a, b, '-', e, f, '/'] ∧ letterCi a = true ∧
    letterCi b = true ∧ letterCi e = true ∧ letterCi f = true

/-- Full structural shape of the calculator prefix matched by
`tryCalcPre`. -/
def preShape (pre : List Char) : Prop :=
  ∃ c1 c2 c3 mid c5, pre = c1 ++ (c2 ++ (c3 ++ (mid ++ c5))) ∧
    c1.map Char.toLower = "http".data ∧
    (c2 = [] ∨ c2.map Char.toLower = ['s']) ∧
    c3.map Char.toLower = "://azure.microsoft.com/".data ∧
    (mid = [] ∨ localeShape mid) ∧
    c5.map Char.toLower = "pricing/calculator".data

theorem tryLocale_some {s mid r : List Char} (h : tryLocale s = some (mid, r)) :
    s = mid ++ r ∧ localeShape mid := by
  rcases s with _ | ⟨a, _ | ⟨b, _ | ⟨d, _ | ⟨e, _ | ⟨f, _ | ⟨g, rest⟩⟩⟩⟩⟩⟩
  case nil => exact absurd h (by simp [tryLocale])
  case cons.nil => exact absurd h (by simp [tryLocale])
  case cons.cons.nil => exact absurd h (by simp [tryLocale])
  case cons.cons.cons.nil => exact absurd h (by simp [tryLocale])
  case cons.cons.cons.cons.nil => exact absurd h (by simp [tryLocale])
  case cons.cons.cons.cons.cons.nil => exact absurd h (by simp [tryLocale])
  case cons.cons.cons.cons.cons.cons =>
    rw [show tryLocale (a :: b :: d :: e :: f :: g :: rest) =
      (if letterCi a && letterCi b && d = '-' && letterCi e && letterCi f && g = '/'
       then some ([a, b, d, e, f, g], rest) else none) from rfl] at h
    by_cases hc :
        letterCi a && letterCi b && d = '-' && letterCi e && letterCi f && g = '/'
    · rw [if_pos hc] at h
      injection h with h2
      injection h2 with hm hr
      subst hm; subst hr
      simp only [Bool.and_eq_true, decide_eq_true_eq] at hc
      obtain ⟨⟨⟨⟨⟨ha, hb⟩, hd⟩, he⟩, hf⟩, hg⟩ := hc
      subst hd; subst hg
      exact ⟨rfl, a, b, e, f, rfl, ha, hb, he, hf⟩
    · rw [if_neg hc] at h
      exact absurd h (by simp)

theorem tryCalcPre_some {s pre r : List Char} (h : tryCalcPre s = some (pre, r)) :
    s = pre ++ r ∧ preShape pre := by
  rw [tryCalcPre] at h
  cases h1 : ciLit ("http".data) s with
  | none => rw [h1] at h; exact absurd h (by simp)
  | some pr1 =>
    obtain ⟨c1, r1⟩ := pr1
    rw [h1] at h
    dsimp only at h
    rcases hoc : optCh 's' r1 with ⟨c2, r2⟩
    rw [hoc] at h
    dsimp only at h
    cases h3 : ciLit ("://azure.microsoft.com/".data) r2 with
    | none => rw [h3] at h; exact absurd h (by simp)
    | some pr3 =>
      obtain ⟨c3, r3⟩ := pr3
      rw [h3] at h
      dsimp only at h
      have hr1 : r1 = c2 ++ r2 := by
        rcases optCh_spec hoc with ⟨hm2, hr2⟩ | ⟨c, hm2, _, hl⟩
        · rw [hm2, hr2]; rfl
        · rw [hm2, hl]; rfl
      have hc2 : c2 = [] ∨ c2.map Char.toLower = ['s'] := by
        rcases optCh_spec hoc with ⟨hm2, _⟩ | ⟨c, hm2, hcl, _⟩
        · exact Or.inl hm2
        · exact Or.inr (by rw [hm2, List.map_cons, hcl]; rfl)
      have hs : ∀ rest5 c5 r5, ciLit ("pricing/calculator".data) rest5 = some (c5, r5) →
          ∀ mid, r3 = mid ++ rest5 → (mid = [] ∨ localeShape mid) →
          some (c1 ++ c2 ++ c3 ++ mid ++ c5, r5) = some (pre, r) → s = pre ++ r ∧ preShape pre := by
        intro rest5 c5 r5 h5 mid hmid hmids heq
        injection heq with hm5
        injection hm5 with hpre hr5
        constructor
        · rw [(ciLit_eq h1).1, hr1, (ciLit_eq h3).1, hmid, (ciLit_eq h5).1, ← hpre, ← hr5]
          try simp [List.append_assoc]
        · refine ⟨c1, c2, c3, mid, c5, ?_, (ciLit_eq h1).2, hc2, (ciLit_eq h3).2,
            hmids, (ciLit_eq h5).2⟩
          rw [← hpre]
          simp [List.append_assoc]
      cases h4 : tryLocale r3 with
      | some pr4 =>
        obtain ⟨c4, r4⟩ := pr4
        rw [h4] at h
        dsimp only at h
        cases h5 : ciLit ("pricing/calculator".data) r4 with
        | some pr5 =>
          obtain ⟨c5, r5⟩ := pr5
          rw [h5] at h
          dsimp only at h
          have hml := tryLocale_some h4
          exact hs r4 c5 r5 h5 c4 hml.1 (Or.inr hml.2) h
        | none =>
          rw [h5] at h
          dsimp only at h
          cases h6 : ciLit ("pricing/calculator".data) r3 with
          | some pr6 =>
            obtain ⟨c6, r6⟩ := pr6
            rw [h6] at h
            dsimp only at h
            exact hs r3 c6 r6 h6 [] rfl (Or.inl rfl) (by rw [← h, List.append_nil])
          | none => rw [h6] at h; exact absurd h (by simp)
      | none =>
        rw [h4] at h
        dsimp only at h
        cases h6 : ciLit ("pricing/calculator".data) r3 with
        | some pr6 =>
          obtain ⟨c6, r6⟩ := pr6
          rw [h6] at h
          dsimp only at h
          exact hs r3 c6 r6 h6 [] rfl (Or.inl rfl) (by rw [← h, List.append_nil])
        | none => rw [h6] at h; exact absurd h (by simp)

theorem preShape_token {pre : List Char} (h : preShape pre) :
    ∀ c ∈ pre, tokenChar c = true := by
  obtain ⟨c1, c2, c3, mid, c5, hm, h1, h2, h3, h4, h5⟩ := h
  intro c hc
  rw [hm] at hc
  rcases List.mem_append.mp hc with hc | hc
  · exact tokenChar_of_map_toLower (by decide) h1 c hc
  rcases List.mem_append.mp hc with hc | hc
  · rcases h2 with h2 | h2
    · rw [h2] at hc; simp at hc
    · exact tokenChar_of_map_toLower (by decide) h2 c hc
  rcases List.mem_append.mp hc with hc | hc
  · exact tokenChar_of_map_toLower (by decide) h3 c hc
  rcases List.mem_append.mp hc with hc | hc
  · rcases h4 with h4 | h4
    · rw [h4] at hc; simp at hc
    · obtain ⟨a, b, e, f, hm4, ha, hb, he, hf⟩ := h4
      rw [hm4] at hc
      simp only [List.mem_cons, List.mem_singleton, List.not_mem_nil, or_false] at hc
      rcases hc with rfl | rfl | rfl | rfl | rfl | rfl
      · exact tokenChar_of_letterCi ha
      · exact tokenChar_of_letterCi hb
      · decide
      · exact tokenChar_of_letterCi he
      · exact tokenChar_of_letterCi hf
      · decide
  · exact tokenChar_of_map_toLower (by decide) h5 c hc

theorem preShape_shapeP {pre : List Char} (h : preShape pre) :
    ∃ t, lowerL pre = ("http://azure.microsoft.com/".data) ++ t ∨
      lowerL pre = ("https://azure.microsoft.com/".data) ++ t := by
  obtain ⟨c1, c2, c3, mid, c5, hm, h1, h2, h3, _, _⟩ := h
  subst hm
  rcases h2 with h2 | h2
  · refine ⟨lowerL (mid ++ c5), Or.inl ?_⟩
    simp only [lowerL, List.map_append]
    rw [show List.map Char.toLower c1 = "http".data from h1,
      show List.map Char.toLower c2 = [] from by rw [h2]; rfl,
      show List.map Char.toLower c3 = "://azure.microsoft.com/".data from h3]
    rfl
  · refine ⟨lowerL (mid ++ c5), Or.inr ?_⟩
    simp only [lowerL, List.map_append]
    rw [show List.map Char.toLower c1 = "http".data from h1,
      show List.map Char.toLower c2 = ['s'] from h2,
      show List.map Char.toLower c3 = "://azure.microsoft.com/".data from h3]
    rfl

theorem getLast?_map_toLower : ∀ l : List Char,
    (l.map Char.toLower).getLast? = l.getLast?.map Char.toLower
  | [] => rfl
  | [_] => rfl
  | a :: b :: t => by
    rw [List.map_cons, List.map_cons, List.getLast?_cons_cons,
      ← List.map_cons, getLast?_map_toLower (b :: t), List.getLast?_cons_cons]

theorem getLast?_append_right : ∀ (l₁ l₂ : List Char), l₂ ≠ [] →
    (l₁ ++ l₂).getLast? = l₂.getLast?
  | [], _, _ => rfl
  | a :: t, l₂, h => by
    rw [List.cons_append]
    have ht := getLast?_append_right t l₂ h
    cases hte : t ++ l₂ with
    | nil => exact absurd (List.append_eq_nil.mp hte).2 h
    | cons x xs =>
      rw [hte] at ht
      rw [List.getLast?_cons_cons, ht]

theorem preShape_last {pre : List Char} (h : preShape pre) :
    ∃ la, pre.getLast? = some la ∧ la.toLower = 'r' := by
  obtain ⟨c1, c2, c3, mid, c5, hm, _, _, _, _, h5⟩ := h
  have hc5 : c5 ≠ [] := by
    intro he
    rw [he] at h5
    exact absurd h5 (by decide)
  have hl5 : (c5.map Char.toLower).getLast? = some 'r' := by
    rw [h5]; rfl
  rw [getLast?_map_toLower] at hl5
  cases hg : c5.getLast? with
  | none => rw [hg] at hl5; exact absurd hl5 (by simp)
  | some la =>
    rw [hg] at hl5
    refine ⟨la, ?_, by injection hl5⟩
    rw [hm]
    rw [getLast?_append_right _ _ (by simp [hc5]),
      getLast?_append_right _ _ (by simp [hc5]),
      getLast?_append_right _ _ (by simp [hc5]),
      getLast?_append_right _ _ hc5, hg]

theorem tryCalcAny_some {s m r : List Char} (h : tryCalcAny s = some (m, r)) :
    ∃ pre tok, m = pre ++ tok ∧ preShape pre ∧ ∀ c ∈ tok, tokenChar c = true := by
  rw [tryCalcAny] at h
  cases hp : tryCalcPre s with
  | none => rw [hp] at h; exact absurd h (by simp)
  | some pr =>
    obtain ⟨pre, r0⟩ := pr
    rw [hp] at h
    dsimp only at h
    injection h with h2
    injection h2 with hm hr
    exact ⟨pre, r0.takeWhile tokenChar, hm.symm, (tryCalcPre_some hp).2,
      fun c hc => (mem_of_mem_takeWhile hc).2⟩

/-- Every `AZURE_E_RE.findall` result has the experience shape. -/
theorem findallE_spec (md : String) : ∀ u ∈ findallE md, eShape u.data := by
  intro u hu
  rw [findallE] at hu
  rcases List.mem_map.mp hu with ⟨m, hm, he⟩
  have := scanA_inv tryE eShape (fun _ _ _ hh => tryE_some hh) _ _ _ hm
  rw [← he]
  exact this

/-- Every `CALC_ANY_RE.findall` result is whitespace/delimiter free and has
the calculator prefix shape. -/
theorem findallCalc_spec (md : String) :
    ∀ u ∈ findallCalc md,
      (∀ c ∈ u.data, tokenChar c = true) ∧ calcShapeP u.data := by
  intro u hu
  rw [findallCalc] at hu
  rcases List.mem_map.mp hu with ⟨m, hm, he⟩
  have hx := scanA_inv tryCalcAny
    (fun m => ∃ pre tok, m = pre ++ tok ∧ preShape pre ∧
      ∀ c ∈ tok, tokenChar c = true)
    (fun _ _ _ hh => tryCalcAny_some hh) _ _ _ hm
  obtain ⟨pre, tok, hmm, hpre, htok⟩ := hx
  rw [← he]
  constructor
  · intro c hc
    rw [show (⟨m⟩ : String).data = m from rfl, hmm] at hc
    rcases List.mem_append.mp hc with hc | hc
    · exact preShape_token hpre c hc
    · exact htok c hc
  · obtain ⟨t, ht⟩ := preShape_shapeP hpre
    refine ⟨t ++ lowerL tok, ?_⟩
    rw [show (⟨m⟩ : String).data = m from rfl, hmm]
    simp only [lowerL, List.map_append] at ht ⊢
    rcases ht with ht | ht
    · exact Or.inl (by rw [ht, List.append_assoc])
    · exact Or.inr (by rw [ht, List.append_assoc])

theorem prefix_clash {L P₁ P₂ t₁ t₂ : List Char} (h1 : L = P₁ ++ t₁)
    (h2 : L = P₂ ++ t₂) (hlen : P₁.length ≤ P₂.length)
    (hne : P₂.take P₁.length ≠ P₁) : False := by
  apply hne
  have e1 : L.take P₁.length = P₁ := by rw [h1, List.take_left]
  have e2 : (L.take P₂.length).take P₁.length = P₂.take P₁.length := by
    rw [h2, List.take_left]
  rw [List.take_take, min_eq_left hlen, e1] at e2
  exact e2.symm

/-- An experience-shape URL is never literally equal to a calculator-shape
URL: the lowercased prefixes clash. -/
theorem eShapeP_ne_calcShapeP {m₁ m₂ : List Char} (h1 : eShapeP m₁)
    (h2 : calcShapeP m₂) : m₁ ≠ m₂ := by
  intro he
  subst he
  obtain ⟨t1, h1⟩ := h1
  obtain ⟨t2, h2⟩ := h2
  rcases h1 with h1 | h1 <;> rcases h2 with h2 | h2
  · exact prefix_clash h1 h2 (by decide) (by decide)
  · exact prefix_clash h1 h2 (by decide) (by decide)
  · exact prefix_clash h1 h2 (by decide) (by decide)
  · exact prefix_clash h1 h2 (by decide) (by decide)

theorem pyWs_false_of_token {c : Char} (h : tokenChar c = true) :
    pyWs c = false := by
  rw [tokenChar] at h
  cases hw : pyWs c with
  | false => rfl
  | true => rw [hw] at h; exact absurd h (by simp)

theorem optCh_skip {p c : Char} {l : List Char} (h : ¬c.toLower = p) :
    optCh p (c :: l) = ([], c :: l) := by rw [optCh, if_neg h]

/-- Skipping the optional `s` of `https?` lands right on the `://` part. -/
theorem optCh_step {c2 c3 tok : List Char}
    (h2 : c2 = [] ∨ c2.map Char.toLower = ['s'])
    (h3 : c3.map Char.toLower = "://azure.com/e/".data ∨
      c3.map Char.toLower = "://azure.microsoft.com/".data) :
    (optCh 's' (c2 ++ (c3 ++ tok))).2 = c3 ++ tok := by
  rcases h2 with h2 | h2
  · subst h2
    rw [List.nil_append]
    cases c3 with
    | nil => rcases h3 with h3 | h3 <;> exact absurd h3 (by decide)
    | cons d ct =>
      have hd : d.toLower = ':' := by
        rw [List.map_cons] at h3
        rcases h3 with h3 | h3 <;> injection h3
      rw [List.cons_append, optCh_skip (by rw [hd]; decide)]
  · cases c2 with
    | nil => exact absurd h2 (by decide)
    | cons c c2t =>
      cases c2t with
      | cons x xs =>
        rw [List.map_cons, List.map_cons] at h2
        simp at h2
      | nil =>
        have hcl : c.toLower = 's' := by
          rw [List.map_cons] at h2
          injection h2
        rw [List.singleton_append, optCh, if_pos hcl]

/-- Every `AZURE_E_RE` match passes the anchored `AZURE_EXPERIENCE_RE`
test of the build script. -/
theorem eShape_expFull {m : List Char} (h : eShape m) :
    expFullB (⟨m⟩ : String) = true := by
  obtain ⟨c1, c2, c3, tok, hm, h1, h2, h3, hne, htok⟩ := h
  have htw : tok.takeWhile (fun c => !pyWs c) = tok :=
    takeWhile_eq_self fun c hc => by rw [pyWs_false_of_token (htok c hc)]; rfl
  have hemp : tok.isEmpty = false := by
    cases tok with
    | nil => exact absurd rfl hne
    | cons a b => rfl
  rw [expFullB]
  dsimp only
  rw [hm, ciLit_append _ (show List.map Char.toLower c1 = ['h', 't', 't', 'p'] from h1)]
  dsimp only
  rw [optCh_step h2 (Or.inl h3), ciLit_append _ (show List.map Char.toLower c3 =
    [':', '/', '/', 'a', 'z', 'u', 'r', 'e', '.', 'c', 'o', 'm', '/', 'e', '/'] from h3)]
  dsimp only
  rw [htw, hemp, List.drop_length]
  rfl

end ScanInvariants

section RootOtherDisjoint

theorem strEta (s : String) : (⟨s.data⟩ : String) = s := by
  cases s
  rfl

/-- A whitespace/delimiter-free string accepted by `CALC_ROOT_RE.match`
ends in `/` or in (a case variant of) `r`: the lookahead can only be the
end of the string. -/
theorem calcRootB_last {v : List Char} (hv : ∀ c ∈ v, tokenChar c = true)
    (h : calcRootB v = true) :
    ∃ la, v.getLast? = some la ∧ (la = '/' ∨ la.toLower = 'r') := by
  rw [calcRootB] at h
  cases hp : tryCalcPre v with
  | none => rw [hp] at h; exact absurd h (by simp)
  | some pr =>
    obtain ⟨pre, r⟩ := pr
    rw [hp] at h
    dsimp only at h
    obtain ⟨hveq, hpre⟩ := tryCalcPre_some hp
    cases r with
    | nil =>
      obtain ⟨la, hla, hr⟩ := preShape_last hpre
      refine ⟨la, ?_, Or.inr hr⟩
      rw [hveq, List.append_nil, hla]
    | cons d r2 =>
      dsimp only at h
      by_cases hd : d = '/'
      · subst hd
        rw [if_pos rfl] at h
        cases r2 with
        | nil =>
          refine ⟨'/', ?_, Or.inl rfl⟩
          rw [hveq, getLast?_append_right _ _ (by simp)]
          rfl
        | cons d2 r3 =>
          exfalso
          dsimp only at h
          have hmem : d2 ∈ v := by rw [hveq]; simp
          rw [hv d2 hmem] at h
          exact absurd h (by simp)
      · rw [if_neg hd] at h
        exfalso
        have hmem : d ∈ v := by rw [hveq]; simp
        rw [hv d hmem] at h
        exact absurd h (by simp)

theorem puncCh_false_of_last {la : Char} (h : la = '/' ∨ la.toLower = 'r') :
    puncCh la = false := by
  cases hq : puncCh la with
  | false => rfl
  | true =>
    exfalso
    simp only [puncCh, Bool.or_eq_true, decide_eq_true_eq] at hq
    rcases h with rfl | h
    · rcases hq with ((hq | hq) | hq) | hq <;> exact absurd hq (by decide)
    · rcases hq with ((rfl | rfl) | rfl) | rfl <;> exact absurd h (by decide)

/-- The right strip of `').,;'` fixes any string accepted by
`CALC_ROOT_RE.match` whose characters are whitespace/delimiter-free. -/
theorem rstripPunct_eq_self {v : String} (hv : ∀ c ∈ v.data, tokenChar c = true)
    (h : calcRootS v = true) : rstripPunct v = v := by
  obtain ⟨la, hla, hr⟩ := calcRootB_last hv h
  rw [rstripPunct, rstripChars_eq_self hla (puncCh_false_of_last hr)]

theorem partitionCalc_root {shared l : List String} {v : String}
    (h : v ∈ (partitionCalc shared l).1) :
    ∃ u ∈ l, v = rstripPunct u ∧ calcRootS (rstripPunct u) = true ∧
      ¬(rstripPunct u).data.contains '?' = true ∧
      ¬(rstripPunct u).data.contains '#' = true := by
  induction l with
  | nil => simp [partitionCalc] at h
  | cons u rest ih =>
    rw [partitionCalc] at h
    by_cases hc : calcRootS (rstripPunct u) = true ∧
        ¬(rstripPunct u).data.contains '?' = true ∧
        ¬(rstripPunct u).data.contains '#' = true
    · rw [if_pos hc] at h
      rcases List.mem_cons.mp h with rfl | h2
      · exact ⟨u, List.mem_cons_self _ _, rfl, hc⟩
      · obtain ⟨w, hw, hrest⟩ := ih h2
        exact ⟨w, List.mem_cons_of_mem _ hw, hrest⟩
    · rw [if_neg hc] at h
      by_cases hsh : u ∈ shared
      · rw [if_pos hsh] at h
        obtain ⟨w, hw, hrest⟩ := ih h
        exact ⟨w, List.mem_cons_of_mem _ hw, hrest⟩
      · rw [if_neg hsh] at h
        obtain ⟨w, hw, hrest⟩ := ih h
        exact ⟨w, List.mem_cons_of_mem _ hw, hrest⟩

theorem partitionCalc_other {shared l : List String} {w : String}
    (h : w ∈ (partitionCalc shared l).2) :
    w ∈ l ∧ ¬(calcRootS (rstripPunct w) = true ∧
      ¬(rstripPunct w).data.contains '?' = true ∧
      ¬(rstripPunct w).data.contains '#' = true) ∧ w ∉ shared := by
  induction l with
  | nil => simp [partitionCalc] at h
  | cons u rest ih =>
    rw [partitionCalc] at h
    by_cases hc : calcRootS (rstripPunct u) = true ∧
        ¬(rstripPunct u).data.contains '?' = true ∧
        ¬(rstripPunct u).data.contains '#' = true
    · rw [if_pos hc] at h
      obtain ⟨hw, hrest⟩ := ih h
      exact ⟨List.mem_cons_of_mem _ hw, hrest⟩
    · rw [if_neg hc] at h
      by_cases hsh : u ∈ shared
      · rw [if_pos hsh] at h
        obtain ⟨hw, hrest⟩ := ih h
        exact ⟨List.mem_cons_of_mem _ hw, hrest⟩
      · rw [if_neg hsh] at h
        rcases List.mem_cons.mp h with rfl | h2
        · exact ⟨List.mem_cons_self _ _, hc, hsh⟩
        · obtain ⟨hw, hrest⟩ := ih h2
          exact ⟨List.mem_cons_of_mem _ hw, hrest⟩

end RootOtherDisjoint

section BucketLemmas

/-- Bucket membership transported to the underlying `findall` lists. -/
theorem mem_exp_bucket {md_text u : String}
    (h : u ∈ (categorize_links md_text).azure_experience_links) :
    u ∈ findallE md_text := by
  rw [categorize_links] at h
  dsimp only at h
  exact (mem_pySortedSet _ _).mp h

theorem mem_pricing_bucket {md_text u : String}
    (h : u ∈ (categorize_links md_text).pricing_calculator_links) :
    u ∈ findallCalc md_text := by
  rw [categorize_links] at h
  dsimp only at h
  exact (mem_pySortedSet _ _).mp h

theorem mem_calcShared_bucket {md_text u : String}
    (h : u ∈ (categorize_links md_text).calculator_shared_estimate_links) :
    u ∈ findallCalc md_text ∧ ciSubB "shared-estimate=" u = true := by
  rw [categorize_links] at h
  dsimp only at h
  have h2 := (mem_pySortedSet _ _).mp h
  have h3 := List.mem_filter.mp h2
  exact ⟨(mem_pySortedSet _ _).mp h3.1, h3.2⟩

theorem mem_shared_bucket {md_text u : String} :
    u ∈ (categorize_links md_text).shared_estimate_links ↔
      (u ∈ (categorize_links md_text).azure_experience_links ∨
       u ∈ (categorize_links md_text).calculator_shared_estimate_links) := by
  rw [categorize_links]
  dsimp only
  rw [mem_pySortedSet, List.mem_append]

end BucketLemmas

section Claims46

/-- C6: for every document text, no URL string appears in both the
calculator-root-links bucket and the calculator-other-links bucket of the
classifier output. A root-bucket entry is the right strip of a delimiter-free
calculator match that `CALC_ROOT_RE` accepts with no `?` or `#`; stripping
fixes it, so the same string cannot also fail that test as an other-bucket
entry requires. -/
theorem c6_root_other_disjoint (md_text : String) (u : String)
    (h : u ∈ (categorize_links md_text).calculator_root_links) :
    u ∉ (categorize_links md_text).calculator_other_links := by
  intro ho
  rw [categorize_links] at h ho
  dsimp only at h ho
  obtain ⟨w, hwCA, huw, hcond⟩ := partitionCalc_root ((mem_pySortedSet _ _).mp h)
  obtain ⟨huCA, hnc, _⟩ := partitionCalc_other ((mem_pySortedSet _ _).mp ho)
  have hwF : w ∈ findallCalc md_text := (mem_pySortedSet _ _).mp hwCA
  have htokw : ∀ c ∈ w.data, tokenChar c = true := (findallCalc_spec _ w hwF).1
  have htoku : ∀ c ∈ u.data, tokenChar c = true := by
    intro c hc
    rw [huw] at hc
    exact htokw c (mem_of_mem_rstripChars hc)
  rw [← huw] at hcond
  have hfix : rstripPunct u = u := rstripPunct_eq_self htoku hcond.1
  rw [hfix] at hnc
  exact hnc hcond

/-- Witness for C6: a concrete root-calculator document. -/
theorem c6_witness :
    "https://azure.microsoft.com/pricing/calculator" ∈
      (categorize_links
        "see https://azure.microsoft.com/pricing/calculator now").calculator_root_links ∧
    "https://azure.microsoft.com/pricing/calculator" ∉
      (categorize_links
        "see https://azure.microsoft.com/pricing/calculator now").calculator_other_links :=
  ⟨by decide, c6_root_other_disjoint _ _ (by decide)⟩

/-- The spec's bucket order: de-duplicate the raw matches preserving
first-seen order of occurrence in the text. Modelled from the spec for
comparison with the sorted buckets the code produces. -/
def firstSeenDedup (ms : List String) : List String := dedupKF [] ms

/-- C4 counterexample input: two experience links out of lexicographic
order plus one with a trailing dot. -/
def c4text : String :=
  "https://azure.com/e/zzz https://azure.com/e/aaa https://azure.com/e/q."

/-- C4 counterexample: the experience bucket is sorted, not in first-seen
order, and a trailing `.` is not stripped from a stored URL. -/
theorem c4_counterexample :
    (categorize_links c4text).azure_experience_links =
      ["https://azure.com/e/aaa", "https://azure.com/e/q.",
        "https://azure.com/e/zzz"] ∧
    firstSeenDedup (findallE c4text) =
      ["https://azure.com/e/zzz", "https://azure.com/e/aaa",
        "https://azure.com/e/q."] ∧
    (categorize_links c4text).azure_experience_links ≠
      firstSeenDedup (findallE c4text) ∧
    "https://azure.com/e/q." ∈ (categorize_links c4text).azure_experience_links := by
  refine ⟨by decide, by decide, by decide, by decide⟩

/-- C4 (amended): every bucket of `categorize_links` is deduplicated and in
ascending code-point lexicographic order (`sorted(set(...))`), not
first-seen order; experience and calculator URLs are stored exactly as
matched in the text (so trailing `.` survives), and only the
calculator-root bucket stores right-stripped (`').,;'`) matches. -/
theorem c4_amended (md_text : String) :
    ((categorize_links md_text).azure_experience_links.Nodup ∧
     (categorize_links md_text).calculator_root_links.Nodup ∧
     (categorize_links md_text).calculator_shared_estimate_links.Nodup ∧
     (categorize_links md_text).calculator_other_links.Nodup ∧
     (categorize_links md_text).shared_estimate_links.Nodup ∧
     (categorize_links md_text).pricing_calculator_links.Nodup ∧
     (categorize_links md_text).all_matching_links.Nodup) ∧
    ((categorize_links md_text).azure_experience_links.Pairwise
        (fun a b => strLeB a b = true) ∧
     (categorize_links md_text).calculator_root_links.Pairwise
        (fun a b => strLeB a b = true) ∧
     (categorize_links md_text).calculator_shared_estimate_links.Pairwise
        (fun a b => strLeB a b = true) ∧
     (categorize_links md_text).calculator_other_links.Pairwise
        (fun a b => strLeB a b = true) ∧
     (categorize_links md_text).shared_estimate_links.Pairwise
        (fun a b => strLeB a b = true) ∧
     (categorize_links md_text).pricing_calculator_links.Pairwise
        (fun a b => strLeB a b = true) ∧
     (categorize_links md_text).all_matching_links.Pairwise
        (fun a b => strLeB a b = true)) ∧
    ((∀ u ∈ (categorize_links md_text).azure_experience_links,
        u ∈ findallE md_text) ∧
     (∀ u ∈ (categorize_links md_text).pricing_calculator_links,
        u ∈ findallCalc md_text) ∧
     (∀ u ∈ (categorize_links md_text).calculator_shared_estimate_links,
        u ∈ findallCalc md_text) ∧
     (∀ u ∈ (categorize_links md_text).calculator_other_links,
        u ∈ findallCalc md_text) ∧
     (∀ v ∈ (categorize_links md_text).calculator_root_links,
        ∃ u ∈ findallCalc md_text, v = rstripPunct u)) := by
  refine ⟨⟨?_, ?_, ?_, ?_, ?_, ?_, ?_⟩, ⟨?_, ?_, ?_, ?_, ?_, ?_, ?_⟩,
    ⟨?_, ?_, ?_, ?_, ?_⟩⟩
  · rw [categorize_links]; exact nodup_pySortedSet _
  · rw [categorize_links]; exact nodup_pySortedSet _
  · rw [categorize_links]; exact nodup_pySortedSet _
  · rw [categorize_links]; exact nodup_pySortedSet _
  · rw [categorize_links]; exact nodup_pySortedSet _
  · rw [categorize_links]; exact nodup_pySortedSet _
  · rw [categorize_links]; exact nodup_pySortedSet _
  · rw [categorize_links]; exact sorted_pySortedSet _
  · rw [categorize_links]; exact sorted_pySortedSet _
  · rw [categorize_links]; exact sorted_pySortedSet _
  · rw [categorize_links]; exact sorted_pySortedSet _
  · rw [categorize_links]; exact sorted_pySortedSet _
  · rw [categorize_links]; exact sorted_pySortedSet _
  · rw [categorize_links]; exact sorted_pySortedSet _
  · exact fun u hu => mem_exp_bucket hu
  · exact fun u hu => mem_pricing_bucket hu
  · exact fun u hu => (mem_calcShared_bucket hu).1
  · intro u hu
    rw [categorize_links] at hu
    dsimp only at hu
    have h2 := (partitionCalc_other ((mem_pySortedSet _ _).mp hu)).1
    exact (mem_pySortedSet _ _).mp h2
  · intro v hv
    rw [categorize_links] at hv
    dsimp only at hv
    obtain ⟨u, hu, he, _⟩ := partitionCalc_root ((mem_pySortedSet _ _).mp hv)
    exact ⟨u, (mem_pySortedSet _ _).mp hu, he⟩

/-- Witness for C4 (amended) at a concrete document. -/
theorem c4_amended_witness :
    (categorize_links "https://azure.com/e/x").azure_experience_links.Nodup ∧
    "https://azure.com/e/x" ∈ findallE "https://azure.com/e/x" :=
  ⟨(c4_amended "https://azure.com/e/x").1.1,
    (c4_amended "https://azure.com/e/x").2.2.1 _ (by decide)⟩

/-- C5 counterexample input: an uppercase shared-estimate calculator link
sorts before a lowercase experience link. -/
def c5text : String :=
  "https://azure.com/e/x HTTPS://AZURE.MICROSOFT.COM/PRICING/CALCULATOR?SHARED-ESTIMATE=1"

/-- C5 counterexample: the shared-estimate bucket is the set union, but its
order is lexicographic; here a calculator link precedes every experience
link, refuting the claimed first-occurrence order with experience links
first. -/
theorem c5_counterexample :
    (categorize_links c5text).shared_estimate_links =
      ["HTTPS://AZURE.MICROSOFT.COM/PRICING/CALCULATOR?SHARED-ESTIMATE=1",
        "https://azure.com/e/x"] ∧
    "https://azure.com/e/x" ∈ (categorize_links c5text).azure_experience_links ∧
    "HTTPS://AZURE.MICROSOFT.COM/PRICING/CALCULATOR?SHARED-ESTIMATE=1" ∉
      (categorize_links c5text).azure_experience_links := by
  refine ⟨by decide, by decide, by decide⟩

/-- C5 (amended): the shared-estimate bucket equals the set union of the
experience bucket and the calculator-shared-estimate bucket, deduplicated
and in ascending lexicographic order (not first-occurrence order). -/
theorem c5_shared_is_union (md_text : String) :
    (∀ u, u ∈ (categorize_links md_text).shared_estimate_links ↔
      (u ∈ (categorize_links md_text).azure_experience_links ∨
       u ∈ (categorize_links md_text).calculator_shared_estimate_links)) ∧
    (categorize_links md_text).shared_estimate_links.Nodup ∧
    (categorize_links md_text).shared_estimate_links.Pairwise
      (fun a b => strLeB a b = true) := by
  refine ⟨fun u => mem_shared_bucket, ?_, ?_⟩
  · rw [categorize_links]; exact nodup_pySortedSet _
  · rw [categorize_links]; exact sorted_pySortedSet _

/-- Witness for C5 (amended) at a concrete document. -/
theorem c5_witness :
    "https://azure.com/e/w" ∈
      (categorize_links "https://azure.com/e/w").shared_estimate_links :=
  ((c5_shared_is_union "https://azure.com/e/w").1 _).mpr (Or.inl (by decide))

end Claims46

section Claim3

/-- The `PickItem` read from a classifier result: the scanner copies these
bundle fields verbatim into the record consumed by the build script. -/
def itemOfBundle (b : LinkBundle) : PickItem :=
  { azure_experience_links := b.azure_experience_links
    shared_estimate_links := b.shared_estimate_links
    pricing_calculator_links := b.pricing_calculator_links
    all_matching_links := b.all_matching_links
    calculator_other_links := b.calculator_other_links
    calculator_shared_estimate_links := b.calculator_shared_estimate_links
    calculator_root_links := b.calculator_root_links }

theorem mem_dedupNE {seen l : List String} {u : String}
    (h : u ∈ dedupNE seen l) : u ∈ l := by
  induction l generalizing seen with
  | nil => simp [dedupNE] at h
  | cons v rest ih =>
    rw [dedupNE] at h
    by_cases hv : v = "" ∨ v ∈ seen
    · rw [if_pos hv] at h
      exact List.mem_cons_of_mem _ (ih h)
    · rw [if_neg hv] at h
      rcases List.mem_cons.mp h with rfl | h2
      · exact List.mem_cons_self _ _
      · exact List.mem_cons_of_mem _ (ih h2)

/-- C3 counterexample input: the calculator URL carries both `service=`
and `shared-estimate=`. -/
def c3ctext : String :=
  "https://azure.microsoft.com/pricing/calculator/?service=a&shared-estimate=b https://azure.com/e/abc"

/-- C3 counterexample: a calculator URL whose query contains `service=`
can also carry `shared-estimate=`; then the shared-estimate bucket does
contain the service link, refuting the claim as stated. -/
theorem c3_counterexample :
    ciSubB "service="
      "https://azure.microsoft.com/pricing/calculator/?service=a&shared-estimate=b" = true ∧
    "https://azure.microsoft.com/pricing/calculator/?service=a&shared-estimate=b" ∈
      (categorize_links c3ctext).pricing_calculator_links ∧
    "https://azure.com/e/abc" ∈ (categorize_links c3ctext).azure_experience_links ∧
    "https://azure.microsoft.com/pricing/calculator/?service=a&shared-estimate=b" ∈
      (categorize_links c3ctext).shared_estimate_links := by
  refine ⟨by decide, by decide, by decide, by decide⟩

/-- C3 (amended): `pick_estimate_link` selects from its flattened,
deduplicated candidates with experience-shape priority; and for every
document text containing a calculator URL whose query contains `service=`
but not `shared-estimate=`, together with an experience URL, the
shared-estimate bucket does not contain the service link, and the selection
over all buckets is an experience link, never the service link. -/
theorem c3_pick_priority :
    (∀ it : PickItem, pick_estimate_link it = "" ∨
      pick_estimate_link it ∈ pickCandidates it) ∧
    (∀ (it : PickItem) (u : String), u ∈ dedupNE [] (pickCandidates it) →
      expFullB u = true → expFullB (pick_estimate_link it) = true) ∧
    (∀ (md_text s e : String),
      s ∈ (categorize_links md_text).pricing_calculator_links →
      ciSubB "service=" s = true →
      ciSubB "shared-estimate=" s = false →
      e ∈ (categorize_links md_text).azure_experience_links →
      s ∉ (categorize_links md_text).shared_estimate_links ∧
      pick_estimate_link (itemOfBundle (categorize_links md_text)) ∈
        (categorize_links md_text).azure_experience_links ∧
      pick_estimate_link (itemOfBundle (categorize_links md_text)) ≠ s) := by
  refine ⟨?_, ?_, ?_⟩
  · intro it
    rw [pick_estimate_link]
    cases h1 : (dedupNE [] (pickCandidates it)).find? expFullB with
    | some u => exact Or.inr (mem_dedupNE (List.mem_of_find?_eq_some h1))
    | none =>
      cases h2 : (dedupNE [] (pickCandidates it)).find? sharedEstimateFullB with
      | some u => exact Or.inr (mem_dedupNE (List.mem_of_find?_eq_some h2))
      | none =>
        cases h3 : (dedupNE [] (pickCandidates it)).find? serviceFullB with
        | some u => exact Or.inr (mem_dedupNE (List.mem_of_find?_eq_some h3))
        | none => exact Or.inl rfl
  · intro it u hu hexp
    cases h1 : (dedupNE [] (pickCandidates it)).find? expFullB with
    | none =>
      exact absurd hexp (List.find?_eq_none.mp h1 u hu)
    | some w =>
      rw [pick_estimate_link, h1]
      exact List.find?_some h1
  · intro md_text s e hs hsrv hnsh he
    have hsF : s ∈ findallCalc md_text := mem_pricing_bucket hs
    have hsCalc : calcShapeP s.data := (findallCalc_spec _ s hsF).2
    have hsNotExp : s ∉ (categorize_links md_text).azure_experience_links := by
      intro hmem
      exact eShapeP_ne_calcShapeP
        (eShape_shapeP (findallE_spec _ s (mem_exp_bucket hmem))) hsCalc rfl
    have hsNotShared : s ∉ (categorize_links md_text).shared_estimate_links := by
      intro hmem
      rcases mem_shared_bucket.mp hmem with hmem | hmem
      · exact hsNotExp hmem
      · rw [(mem_calcShared_bucket hmem).2] at hnsh
        exact absurd hnsh (by simp)
    obtain ⟨e0, tl, hexp⟩ :=
      List.exists_cons_of_ne_nil (List.ne_nil_of_mem he)
    have he0mem : e0 ∈ (categorize_links md_text).azure_experience_links := by
      rw [hexp]; exact List.mem_cons_self _ _
    have he0shape := findallE_spec _ e0 (mem_exp_bucket he0mem)
    have he0tok := eShape_token he0shape
    have hstrip : pyStrip e0 = e0 := pyStrip_eq_self he0tok
    have he0ne : e0 ≠ "" :=
      string_ne_empty_of_data (eShapeP_ne_nil (eShape_shapeP he0shape))
    have hfull : expFullB e0 = true := by
      have h2 := eShape_expFull he0shape
      rwa [strEta] at h2
    have hpick : pick_estimate_link (itemOfBundle (categorize_links md_text)) = e0 := by
      rw [pick_estimate_link, pickCandidates]
      dsimp only [itemOfBundle]
      rw [hexp]
      simp only [List.cons_append, List.map_cons]
      rw [hstrip, dedupNE, if_neg (by simp [he0ne]),
        List.find?_cons_of_pos _ hfull]
    refine ⟨hsNotShared, ?_, ?_⟩
    · rw [hpick]; exact he0mem
    · rw [hpick]
      intro hes
      exact hsNotShared (mem_shared_bucket.mpr (Or.inl (hes ▸ he0mem)))

/-- C3 witness input: a plain service link plus an experience link. -/
def c3wtext : String :=
  "https://azure.microsoft.com/pricing/calculator/?service=a https://azure.com/e/abc"

/-- Witness for C3 (amended) at a concrete document. -/
theorem c3_pick_priority_witness :
    "https://azure.microsoft.com/pricing/calculator/?service=a" ∉
      (categorize_links c3wtext).shared_estimate_links ∧
    pick_estimate_link (itemOfBundle (categorize_links c3wtext)) ∈
      (categorize_links c3wtext).azure_experience_links := by
  have h := c3_pick_priority.2.2 c3wtext
    "https://azure.microsoft.com/pricing/calculator/?service=a"
    "https://azure.com/e/abc" (by decide) (by decide) (by decide) (by decide)
  exact ⟨h.1, h.2.1⟩

end Claim3

section DetectorLemmas

theorem pass1Line_accept {line : String} {ms : List String} {f : Found}
    (h : f ∈ pass1Line line ms) :
    is_likely_architecture_image f.raw f.line f.key = true := by
  induction ms with
  | nil => simp [pass1Line] at h
  | cons raw rest ih =>
    rw [pass1Line] at h
    by_cases hc : is_likely_architecture_image (clean_ref raw) line none = true
    · rw [if_pos hc] at h
      rcases List.mem_cons.mp h with rfl | h2
      · exact hc
      · exact ih h2
    · rw [if_neg hc] at h
      exact ih h

theorem pass2Line_accept {line : String} {ms : List String} {f : Found}
    (h : f ∈ pass2Line line ms) :
    is_likely_architecture_image f.raw f.line f.key = true := by
  induction ms with
  | nil => simp [pass2Line] at h
  | cons raw rest ih =>
    rw [pass2Line] at h
    by_cases hc : is_likely_architecture_image (clean_ref raw) line none = true
    · rw [if_pos hc] at h
      rcases List.mem_cons.mp h with rfl | h2
      · exact hc
      · exact ih h2
    · rw [if_neg hc] at h
      exact ih h

theorem pass3Line_accept {refMap : List (String × String)} {line : String}
    {ms : List String} {f : Found} (h : f ∈ pass3Line refMap line ms) :
    is_likely_architecture_image f.raw f.line f.key = true := by
  induction ms with
  | nil => simp [pass3Line] at h
  | cons rkey rest ih =>
    rw [pass3Line] at h
    cases hg : mapGet refMap (lowerS (pyStrip rkey)) with
    | none => rw [hg] at h; exact ih h
    | some target =>
      rw [hg] at h
      dsimp only at h
      by_cases h0 : target = ""
      · rw [if_pos h0] at h; exact ih h
      · rw [if_neg h0] at h
        by_cases h1 : (!endsWithExt target) = true
        · rw [if_pos h1] at h; exact ih h
        · rw [if_neg h1] at h
          by_cases h2 : is_likely_architecture_image target line
              (some (lowerS (pyStrip rkey))) = true
          · rw [if_pos h2] at h
            rcases List.mem_cons.mp h with rfl | h3
            · exact h2
            · exact ih h3
          · rw [if_neg h2] at h
            exact ih h

theorem pass1_accept {lines : List String} {f : Found} (h : f ∈ pass1 lines) :
    is_likely_architecture_image f.raw f.line f.key = true := by
  induction lines with
  | nil => simp [pass1] at h
  | cons line rest ih =>
    rw [pass1] at h
    rcases List.mem_append.mp h with h2 | h2
    · exact pass1Line_accept h2
    · exact ih h2

theorem pass2_accept {lines : List String} {f : Found} (h : f ∈ pass2 lines) :
    is_likely_architecture_image f.raw f.line f.key = true := by
  induction lines with
  | nil => simp [pass2] at h
  | cons line rest ih =>
    rw [pass2] at h
    rcases List.mem_append.mp h with h2 | h2
    · exact pass2Line_accept h2
    · exact ih h2

theorem pass3_accept {refMap : List (String × String)} {lines : List String}
    {f : Found} (h : f ∈ pass3 refMap lines) :
    is_likely_architecture_image f.raw f.line f.key = true := by
  induction lines with
  | nil => simp [pass3] at h
  | cons line rest ih =>
    rw [pass3] at h
    rcases List.mem_append.mp h with h2 | h2
    · exact pass3Line_accept h2
    · exact ih h2

theorem dedupFound_sub {seen : List String} {l : List Found} {f : Found}
    (h : f ∈ dedupFound seen l) : f ∈ l := by
  induction l generalizing seen with
  | nil => simp [dedupFound] at h
  | cons it rest ih =>
    rw [dedupFound] at h
    by_cases hs : lowerS it.raw ∈ seen
    · rw [if_pos hs] at h
      exact List.mem_cons_of_mem _ (ih h)
    · rw [if_neg hs] at h
      rcases List.mem_cons.mp h with rfl | h2
      · exact List.mem_cons_self _ _
      · exact List.mem_cons_of_mem _ (ih h2)

/-- Every item returned by the detector passed the classification
predicate. -/
theorem find_architecture_images_accept {md_text : String} {f : Found}
    (h : f ∈ find_architecture_images md_text) :
    is_likely_architecture_image f.raw f.line f.key = true := by
  rw [find_architecture_images] at h
  have h2 := dedupFound_sub h
  rcases List.mem_append.mp h2 with h3 | h3
  · rcases List.mem_append.mp h3 with h4 | h4
    · exact pass1_accept h4
    · exact pass2_accept h4
  · exact pass3_accept h3

theorem pass1_mem_of_line {lines : List String} {line : String} {f : Found}
    (hl : line ∈ lines) (hf : f ∈ pass1Line line (imgPathMatches line)) :
    f ∈ pass1 lines := by
  induction lines with
  | nil => simp at hl
  | cons l rest ih =>
    rw [pass1]
    rcases List.mem_cons.mp hl with rfl | h2
    · exact List.mem_append_left _ hf
    · exact List.mem_append_right _ (ih h2)

theorem dedupFound_exists {l : List Found} {x : Found} (hx : x ∈ l) :
    ∀ seen, lowerS x.raw ∈ seen ∨
      ∃ y ∈ dedupFound seen l, lowerS y.raw = lowerS x.raw := by
  induction l with
  | nil => simp at hx
  | cons it rest ih =>
    intro seen
    rw [dedupFound]
    by_cases hs : lowerS it.raw ∈ seen
    · rw [if_pos hs]
      rcases List.mem_cons.mp hx with heq | h2
      · exact Or.inl (by rw [heq]; exact hs)
      · exact ih h2 seen
    · rw [if_neg hs]
      rcases List.mem_cons.mp hx with heq | h2
      · exact Or.inr ⟨it, List.mem_cons_self _ _, by rw [heq]⟩
      · rcases ih h2 (lowerS it.raw :: seen) with hin | ⟨y, hy, hly⟩
        · rcases List.mem_cons.mp hin with heq | hin2
          · exact Or.inr ⟨it, List.mem_cons_self _ _, heq.symm⟩
          · exact Or.inl hin2
        · exact Or.inr ⟨y, List.mem_cons_of_mem _ hy, hly⟩

end DetectorLemmas

section Claim7

/-- C7: a thumbnail/icon/social-image match on the path or the context line
makes the predicate reject the candidate regardless of any inclusion
signal (the exclusion test is the first branch), and the detector never
returns such a candidate. -/
theorem c7_thumb_exclusion :
    (∀ (img_path context_line : String) (ref_key : Option String),
      (thumbSearch (lowerS img_path) = true ∨
        thumbSearch (lowerS context_line) = true) →
      is_likely_architecture_image img_path context_line ref_key = false) ∧
    (∀ (md_text : String) (f : Found), f ∈ find_architecture_images md_text →
      thumbSearch (lowerS f.raw) = false ∧ thumbSearch (lowerS f.line) = false) := by
  have part1 : ∀ (img_path context_line : String) (ref_key : Option String),
      (thumbSearch (lowerS img_path) = true ∨
        thumbSearch (lowerS context_line) = true) →
      is_likely_architecture_image img_path context_line ref_key = false := by
    intro img_path context_line ref_key h
    rw [is_likely_architecture_image]
    rcases h with h | h <;> simp [h]
  refine ⟨part1, ?_⟩
  intro md_text f hf
  have hacc := find_architecture_images_accept hf
  constructor
  · cases ht : thumbSearch (lowerS f.raw) with
    | false => rfl
    | true =>
      rw [part1 _ _ _ (Or.inl ht)] at hacc
      exact absurd hacc (by simp)
  · cases ht : thumbSearch (lowerS f.line) with
    | false => rfl
    | true =>
      rw [part1 _ _ _ (Or.inr ht)] at hacc
      exact absurd hacc (by simp)

/-- Witness for C7: a thumbs-path image with architecture vocabulary in its
name, context and key is still rejected; and a concrete detector result is
thumbnail-free. -/
theorem c7_witness :
    is_likely_architecture_image "media/thumbs/architecture.png"
      ":::image architecture diagram" (some "arch") = false ∧
    thumbSearch (lowerS "./media/arch.svg") = false :=
  ⟨c7_thumb_exclusion.1 _ _ _ (Or.inl (by decide)),
   (c7_thumb_exclusion.2 ":::image source=\"./media/arch.svg\":::"
      ⟨"./media/arch.svg", none, ":::image source=\"./media/arch.svg\":::"⟩
      (by decide)).1⟩

end Claim7

section Claim8

/-- C8 input: a reference-style image use plus its definition line. -/
def c8text : String := "![x][arch]\n[arch]: ./media/diagram.png"

/-- C8 counterexample: the detector stores the raw definition target
`./media/diagram.png`, not the normalized `media/diagram.png` the claim
names (the `./` is only stripped later by the evaluator's resolver). -/
theorem c8_counterexample :
    "media/diagram.png" ∉ (find_architecture_images c8text).map Found.raw ∧
    "./media/diagram.png" ∈ (find_architecture_images c8text).map Found.raw := by
  refine ⟨by decide, by decide⟩

/-- C8 (amended): for every document text containing the reference-style
use `![x][arch]` and the definition line `[arch]: ./media/diagram.png`,
the detector returns an accepted image whose path is `./media/diagram.png`
(up to case), which the evaluator later resolves to `media/diagram.png`
relative to the document directory. -/
theorem c8_ref_style (md_text : String)
    (huse : "![x][arch]" ∈ splitLines md_text)
    (hdef : "[arch]: ./media/diagram.png" ∈ splitLines md_text) :
    ∃ f ∈ find_architecture_images md_text,
      lowerS f.raw = "./media/diagram.png" := by
  have hline : (⟨"./media/diagram.png", none,
      "[arch]: ./media/diagram.png"⟩ : Found) ∈
      pass1Line "[arch]: ./media/diagram.png"
        (imgPathMatches "[arch]: ./media/diagram.png") := by decide
  have hp1 := pass1_mem_of_line hdef hline
  have hfound : (⟨"./media/diagram.png", none,
      "[arch]: ./media/diagram.png"⟩ : Found) ∈
      pass1 (splitLines md_text) ++ pass2 (splitLines md_text) ++
        pass3 (extract_reference_map md_text) (splitLines md_text) :=
    List.mem_append_left _ (List.mem_append_left _ hp1)
  rw [find_architecture_images]
  rcases dedupFound_exists hfound [] with hin | ⟨y, hy, hly⟩
  · simp at hin
  · exact ⟨y, hy, by rw [hly]; decide⟩

/-- Witness for C8 (amended) at the concrete two-line document. -/
theorem c8_ref_style_witness :
    ∃ f ∈ find_architecture_images c8text,
      lowerS f.raw = "./media/diagram.png" :=
  c8_ref_style c8text (by decide) (by decide)

end Claim8

section ResolverLemmas

/-- A plain path segment: not empty, not a dot segment, slash-free. -/
def goodSeg (s : String) : Bool :=
  decide (s ≠ "" ∧ s ≠ "." ∧ s ≠ ".." ∧ '/' ∉ s.data)

theorem goodSeg_spec {s : String} (h : goodSeg s = true) :
    s ≠ "" ∧ s ≠ "." ∧ s ≠ ".." ∧ '/' ∉ s.data := of_decide_eq_true h

theorem splitSlash_no_slash : ∀ (cs : List Char), ∀ l ∈ splitSlash cs, '/' ∉ l := by
  intro cs
  induction cs with
  | nil =>
    intro l hl
    rw [splitSlash, List.mem_singleton] at hl
    subst hl
    simp
  | cons c cs ih =>
    intro l hl
    rw [splitSlash] at hl
    by_cases hc : c = '/'
    · rw [if_pos hc] at hl
      rcases List.mem_cons.mp hl with rfl | h2
      · simp
      · exact ih l h2
    · rw [if_neg hc] at hl
      cases hss : splitSlash cs with
      | nil =>
        rw [hss] at hl
        rw [List.mem_singleton] at hl
        subst hl
        intro hm
        rcases List.mem_singleton.mp hm with rfl
        exact hc rfl
      | cons s ss =>
        rw [hss] at hl
        rcases List.mem_cons.mp hl with rfl | h2
        · intro hmem
          rcases List.mem_cons.mp hmem with heq | h3
          · exact hc heq.symm
          · exact ih s (hss ▸ List.mem_cons_self _ _) h3
        · exact ih l (hss ▸ List.mem_cons_of_mem _ h2)

theorem splitSlash_of_no_slash {cs : List Char} (h : '/' ∉ cs) :
    splitSlash cs = [cs] := by
  induction cs with
  | nil => rfl
  | cons c cs ih =>
    rw [splitSlash,
      if_neg (fun hc => h (by rw [← hc]; exact List.mem_cons_self _ _)),
      ih fun hm => h (List.mem_cons_of_mem _ hm)]

theorem splitSlash_append {a b : List Char} (h : '/' ∉ a) :
    splitSlash (a ++ '/' :: b) = a :: splitSlash b := by
  induction a with
  | nil => rw [List.nil_append, splitSlash, if_pos rfl]
  | cons c cs ih =>
    rw [List.cons_append, splitSlash,
      if_neg (fun hc => h (by rw [← hc]; exact List.mem_cons_self _ _)),
      ih fun hm => h (List.mem_cons_of_mem _ hm)]

theorem foldl_normStep_mem : ∀ (l acc : List String) (x : String),
    x ∈ List.foldl normStep acc l →
    x ∈ acc ∨ (x ∈ l ∧ x ≠ "" ∧ x ≠ "." ∧ x ≠ "..")
  | [], _, _, h => Or.inl h
  | s :: l, acc, x, h => by
    rw [List.foldl_cons] at h
    rcases foldl_normStep_mem l (normStep acc s) x h with h2 | h2
    · rw [normStep] at h2
      by_cases h0 : s = "" ∨ s = "."
      · rw [if_pos h0] at h2
        exact Or.inl h2
      · rw [if_neg h0] at h2
        by_cases h1 : s = ".."
        · rw [if_pos h1] at h2
          exact Or.inl (List.dropLast_subset _ h2)
        · rw [if_neg h1] at h2
          rcases List.mem_append.mp h2 with h3 | h3
          · exact Or.inl h3
          · rw [List.mem_singleton] at h3
            subst h3
            rw [not_or] at h0
            exact Or.inr ⟨List.mem_cons_self _ _, h0.1, h0.2, h1⟩
    · exact Or.inr ⟨List.mem_cons_of_mem _ h2.1, h2.2⟩

theorem foldl_normStep_plain : ∀ (l acc : List String),
    (∀ x ∈ l, x ≠ "" ∧ x ≠ "." ∧ x ≠ "..") →
    List.foldl normStep acc l = acc ++ l
  | [], acc, _ => (List.append_nil acc).symm
  | s :: l, acc, h => by
    obtain ⟨h0, h1, h2⟩ := h s (List.mem_cons_self _ _)
    rw [List.foldl_cons, normStep, if_neg (not_or.mpr ⟨h0, h1⟩), if_neg h2,
      foldl_normStep_plain l (acc ++ [s])
        (fun x hx => h x (List.mem_cons_of_mem _ hx)),
      List.append_assoc, List.singleton_append]

theorem pathSegs_joinSlash : ∀ (l : List String),
    (∀ x ∈ l, goodSeg x = true) → pathSegs (joinSlash l) = l
  | [], _ => rfl
  | [x], h => by
    obtain ⟨h0, h1, _, h3⟩ := goodSeg_spec (h x (List.mem_cons_self _ _))
    rw [joinSlash, pathSegs, splitSlash_of_no_slash h3]
    show List.filter _ [(⟨x.data⟩ : String)] = [x]
    rw [strEta]
    rw [List.filter_cons_of_pos (by simp [h0, h1])]
    rfl
  | x :: y :: t, h => by
    obtain ⟨h0, h1, _, h3⟩ := goodSeg_spec (h x (List.mem_cons_self _ _))
    have hdata : (x ++ "/" ++ joinSlash (y :: t)).data =
        x.data ++ '/' :: (joinSlash (y :: t)).data := by
      show (x.data ++ ['/']) ++ (joinSlash (y :: t)).data = _
      rw [List.append_assoc, List.singleton_append]
    rw [joinSlash, pathSegs, hdata, splitSlash_append h3, List.map_cons]
    show List.filter _ ((⟨x.data⟩ : String) :: _) = _
    rw [strEta, List.filter_cons_of_pos (by simp [h0, h1])]
    have ih := pathSegs_joinSlash (y :: t)
      fun z hz => h z (List.mem_cons_of_mem _ hz)
    rw [pathSegs] at ih
    rw [ih]

theorem isPrefixOf_escape_false {root q : List String}
    (hlen : q.length < root.length) (hetc : "etc" ∉ root) :
    root.isPrefixOf (q ++ ["etc", "passwd"]) = false := by
  cases hp : root.isPrefixOf (q ++ ["etc", "passwd"]) with
  | false => rfl
  | true =>
    exfalso
    apply hetc
    have hpre : root <+: (q ++ ["etc", "passwd"]) :=
      List.isPrefixOf_iff_prefix.mp hp
    have htake : root = (q ++ ["etc", "passwd"]).take root.length :=
      List.prefix_iff_eq_take.mp hpre
    have hget : root.get? q.length = some "etc" := by
      rw [htake, List.get?_take hlen, List.get?_append_right (le_refl _)]
      simp
    exact List.get?_mem hget

end ResolverLemmas

section Claim9

/-- C9 counterexample: from a document directory three levels below the
corpus root, `../../../etc/passwd` resolves to `etc/passwd` under the root
instead of being rejected, so the resolver does not always return absent
for this reference. -/
theorem c9_counterexample :
    resolve_repo_rel ["repo", "a", "b", "c"] "../../../etc/passwd" ["repo"] =
      some "etc/passwd" := by decide

/-- C9 (amended): the resolver either returns absent or a forward-slash
path that stays under the repository root: every returned path is either
`.` or built from plain segments, and re-joining it under the root
normalizes to an extension of the root (no escape). The probe
`../../../etc/passwd` returns absent whenever the document directory lies
fewer than three levels below the corpus root (deeper directories absorb
the `..` segments and yield `etc/passwd`, still under the root). -/
theorem c9_resolver_guard :
    (∀ (base_dir repo_root : List String) (ref s : String),
      (∀ seg ∈ base_dir ++ repo_root, goodSeg seg = true) →
      resolve_repo_rel base_dir ref repo_root = some s →
      s = "." ∨ ((∀ seg ∈ pathSegs s, goodSeg seg = true) ∧
        normJoin (repo_root ++ pathSegs s) = repo_root ++ pathSegs s)) ∧
    (∀ (root bs : List String), root ≠ [] →
      (∀ seg ∈ root ++ bs, goodSeg seg = true) → "etc" ∉ root →
      bs.length < 3 →
      resolve_repo_rel (root ++ bs) "../../../etc/passwd" root = none) := by
  constructor
  · intro base_dir repo_root ref s hgood hres
    rw [resolve_repo_rel] at hres
    by_cases hsch : isSchemeRef (clean_ref ref) = true
    · rw [if_pos hsch] at hres
      exact absurd hres (by simp)
    · rw [if_neg hsch] at hres
      dsimp only at hres
      set r2 := (stripDotSlash (clean_ref ref).data).dropWhile (· = '/') with hr2
      set p := normJoin (base_dir ++ refSegs r2) with hpdef
      by_cases hpre : repo_root.isPrefixOf p = true
      · rw [if_pos hpre] at hres
        injection hres with hres
        by_cases hemp : (p.drop repo_root.length).isEmpty = true
        · rw [if_pos hemp] at hres
          exact Or.inl hres.symm
        · rw [if_neg hemp] at hres
          have hrest : ∀ x ∈ p.drop repo_root.length,
              x ≠ "" ∧ x ≠ "." ∧ x ≠ ".." ∧ '/' ∉ x.data := by
            intro x hx
            have hxp : x ∈ p := List.drop_subset _ _ hx
            rw [hpdef, normJoin] at hxp
            rcases foldl_normStep_mem _ _ _ hxp with h2 | ⟨h2, h3, h4, h5⟩
            · simp at h2
            · rcases List.mem_append.mp h2 with h6 | h6
              · have hg := goodSeg_spec (hgood x (List.mem_append_left _ h6))
                exact ⟨hg.1, hg.2.1, hg.2.2.1, hg.2.2.2⟩
              · refine ⟨h3, h4, h5, ?_⟩
                rw [refSegs] at h6
                rcases List.mem_map.mp h6 with ⟨cl, hcl, he⟩
                rw [← he]
                exact splitSlash_no_slash _ cl hcl
          have hrgood : ∀ x ∈ p.drop repo_root.length, goodSeg x = true := by
            intro x hx
            exact decide_eq_true (hrest x hx)
          have hrt : pathSegs s = p.drop repo_root.length := by
            rw [← hres]
            exact pathSegs_joinSlash _ hrgood
          refine Or.inr ⟨?_, ?_⟩
          · rw [hrt]; exact hrgood
          · rw [hrt, normJoin]
            have hplain2 := foldl_normStep_plain
              (repo_root ++ p.drop repo_root.length) [] (by
                intro x hx
                rcases List.mem_append.mp hx with h6 | h6
                · have hg := goodSeg_spec (hgood x (List.mem_append_right _ h6))
                  exact ⟨hg.1, hg.2.1, hg.2.2.1⟩
                · have hg := hrest x h6
                  exact ⟨hg.1, hg.2.1, hg.2.2.1⟩)
            rw [hplain2, List.nil_append]
      · rw [if_neg hpre] at hres
        exact absurd hres (by simp)
  · intro root bs hroot hgood hetc hlen
    have hns : ∀ x ∈ root ++ bs, x ≠ "" ∧ x ≠ "." ∧ x ≠ ".." := by
      intro x hx
      have hg := goodSeg_spec (hgood x hx)
      exact ⟨hg.1, hg.2.1, hg.2.2.1⟩
    have hplain : List.foldl normStep [] (root ++ bs) = root ++ bs := by
      rw [foldl_normStep_plain _ _ hns, List.nil_append]
    have hp : normJoin ((root ++ bs) ++ ["..", "..", "..", "etc", "passwd"]) =
        (root ++ bs).dropLast.dropLast.dropLast ++ ["etc", "passwd"] := by
      rw [normJoin, List.foldl_append, hplain,
        show List.foldl normStep (root ++ bs) ["..", "..", "..", "etc", "passwd"] =
          (((root ++ bs).dropLast.dropLast.dropLast ++ ["etc"]) ++ ["passwd"]) from rfl]
      simp
    have hkey : resolve_repo_rel (root ++ bs) "../../../etc/passwd" root =
        (if root.isPrefixOf
            (normJoin ((root ++ bs) ++ ["..", "..", "..", "etc", "passwd"])) then
          some (if ((normJoin ((root ++ bs) ++
                ["..", "..", "..", "etc", "passwd"])).drop root.length).isEmpty
            then "."
            else joinSlash ((normJoin ((root ++ bs) ++
              ["..", "..", "..", "etc", "passwd"])).drop root.length))
        else none) := rfl
    have hql : (root ++ bs).dropLast.dropLast.dropLast.length < root.length := by
      rcases bs with _ | ⟨b1, _ | ⟨b2, _ | ⟨b3, bs3⟩⟩⟩
      · rw [List.append_nil]
        have h1 := List.length_dropLast root
        have h2 := List.length_dropLast root.dropLast
        have h3 := List.length_dropLast root.dropLast.dropLast
        have h0 : 1 ≤ root.length := List.length_pos.mpr hroot
        omega
      · rw [List.dropLast_concat]
        have h2 := List.length_dropLast root
        have h3 := List.length_dropLast root.dropLast
        have h0 : 1 ≤ root.length := List.length_pos.mpr hroot
        omega
      · rw [show root ++ [b1, b2] = (root ++ [b1]) ++ [b2] from by simp,
          List.dropLast_concat, List.dropLast_concat]
        have h3 := List.length_dropLast root
        have h0 : 1 ≤ root.length := List.length_pos.mpr hroot
        omega
      · exfalso
        simp at hlen
        omega
    have hpf := isPrefixOf_escape_false hql hetc
    rw [hkey, hp, if_neg (by simp [hpf])]

/-- Witness for C9 (amended): a concrete successful resolution and a
concrete rejected escape. -/
theorem c9_resolver_guard_witness :
    (resolve_repo_rel ["repo", "docs"] "./includes/foo.md" ["repo"] =
      some "docs/includes/foo.md" ∧
      normJoin (["repo"] ++ pathSegs "docs/includes/foo.md") =
        ["repo"] ++ pathSegs "docs/includes/foo.md") ∧
    resolve_repo_rel (["repo"] ++ ["docs"]) "../../../etc/passwd" ["repo"] = none := by
  refine ⟨⟨by decide, ?_⟩, ?_⟩
  · rcases c9_resolver_guard.1 ["repo", "docs"] ["repo"] "./includes/foo.md"
      "docs/includes/foo.md" (by decide) (by decide) with h | h
    · exact absurd h (by decide)
    · exact h.2
  · exact c9_resolver_guard.2 ["repo"] ["docs"] (by decide) (by decide)
      (by decide) (by decide)

end Claim9

section Claim1

/-- A document whose YAML data failed to load (`load_yaml` returned `None`),
so the scan stops at the parse stage. -/
def c1args : ScanArgs := {
  repo_slug := "o/r"
  branch := "main"
  repo_root := ["repo"]
  yml_dir := ["repo", "docs"]
  repo_rel_yml := "docs/a.yml"
  yamlData := none
  fsExists := fun _ => false
  readFile := fun _ => ""
  safeLoad := fun _ => none }

/-- C1 counterexample: the reason code written at the YAML-parse stage is
the underscored string `yaml_parse_failed`, which is not a member of the
hyphenated seven-code set the claim names; the same holds for every other
stage code. -/
theorem c1_counterexample :
    (processDoc c1args).criteria_passed = false ∧
    (processDoc c1args).failure_reason = "yaml_parse_failed" ∧
    (processDoc c1args).failure_reason ∉
      ["yaml-parse-failed", "missing-content-string", "no-include-directive",
       "include-md-unresolvable", "include-md-missing", "no-matching-links",
       "no-architecture-images"] := by
  decide

/-- C1 (amended): for every scanned document, the emitted record satisfies
`criteria_passed = true` iff `failure_reason` is the empty string, and
whenever `criteria_passed = false` the reason is exactly one code of the
closed seven-element set of stage reasons — spelled with underscores
(`yaml_parse_failed`, `missing_content_string`, `no_include_directive`,
`include_md_unresolvable`, `include_md_missing`, `no_matching_links`,
`no_architecture_images`), not with hyphens as the claim states. -/
theorem c1_reason_codes (a : ScanArgs) :
    ((processDoc a).criteria_passed = true ↔
      (processDoc a).failure_reason = "") ∧
    ((processDoc a).criteria_passed = false →
      (processDoc a).failure_reason ∈
        ["yaml_parse_failed", "missing_content_string", "no_include_directive",
         "include_md_unresolvable", "include_md_missing", "no_matching_links",
         "no_architecture_images"]) := by
  simp only [processDoc]
  repeat' split
  all_goals simp

/-- Witness for C1 (amended) at a concrete failing document. -/
theorem c1_reason_codes_witness :
    ((processDoc c1args).criteria_passed = true ↔
      (processDoc c1args).failure_reason = "") ∧
    ((processDoc c1args).criteria_passed = false →
      (processDoc c1args).failure_reason ∈
        ["yaml_parse_failed", "missing_content_string", "no_include_directive",
         "include_md_unresolvable", "include_md_missing", "no_matching_links",
         "no_architecture_images"]) :=
  c1_reason_codes c1args

end Claim1

section Claim2

/-- YAML data of a document whose content holds an include directive. -/
def c2data : List (String × YVal) :=
  [("title", .str "T"), ("description", .str "D"),
   ("azureCategories", .list [.str "web"]),
   ("content", .str "[!INCLUDE [](./includes/foo.md)]")]

/-- A document whose include target resolves but is absent from disk. -/
def c2args : ScanArgs := {
  repo_slug := "o/r"
  branch := "main"
  repo_root := ["repo"]
  yml_dir := ["repo", "docs"]
  repo_rel_yml := "docs/a.yml"
  yamlData := some (.dict c2data)
  fsExists := fun _ => false
  readFile := fun _ => ""
  safeLoad := fun _ => none }

/-- C2 counterexample: when the resolved include file is missing, the
recorded reason is the underscored `include_md_missing`, not the hyphenated
`include-md-missing` the claim states. -/
theorem c2_counterexample :
    (processDoc c2args).criteria_passed = false ∧
    (processDoc c2args).failure_reason = "include_md_missing" ∧
    (processDoc c2args).failure_reason ≠ "include-md-missing" := by
  decide

/-- C2 (amended): for every document whose YAML parses to a mapping, whose
`content` string holds an include directive whose target resolves to a
repo-relative path, but whose resolved include file does not exist on
disk, the record has `criteria_passed = false` with
`failure_reason = "include_md_missing"` (underscores, not hyphens), every
link bucket and image field at its default empty value, the resolved
include path recorded, and the title, description and category metadata
extracted at the parse stage still present. -/
theorem c2_include_missing (a : ScanArgs) (data : List (String × YVal))
    (content ref rel : String)
    (hy : a.yamlData = some (.dict data))
    (hc : getY data "content" = .str content)
    (hi : includeSearch content = some ref)
    (hr : resolve_repo_rel a.yml_dir ref a.repo_root = some rel)
    (hf : a.fsExists rel = false) :
    (processDoc a).criteria_passed = false ∧
    (processDoc a).failure_reason = "include_md_missing" ∧
    (processDoc a).azure_experience_links = [] ∧
    (processDoc a).calculator_root_links = [] ∧
    (processDoc a).calculator_shared_estimate_links = [] ∧
    (processDoc a).calculator_other_links = [] ∧
    (processDoc a).pricing_calculator_links = [] ∧
    (processDoc a).shared_estimate_links = [] ∧
    (processDoc a).all_matching_links = [] ∧
    (processDoc a).image_paths = [] ∧
    (processDoc a).image_download_urls = [] ∧
    (processDoc a).image_exists_in_repo = [] ∧
    (processDoc a).image_formats = [] ∧
    (processDoc a).svg_paths = [] ∧
    (processDoc a).svg_download_urls = [] ∧
    (processDoc a).svg_exists_in_repo = [] ∧
    (processDoc a).architecture_image_heuristic = false ∧
    (processDoc a).include_md_path = some rel ∧
    (processDoc a).title = (extract_yaml_meta data).title ∧
    (processDoc a).description = (extract_yaml_meta data).description ∧
    (processDoc a).azureCategories = (extract_yaml_meta data).azureCategories := by
  simp only [processDoc, hy, hc, hi, hr, hf]
  simp

/-- Witness for C2 (amended) at a concrete document with a missing include
file. -/
theorem c2_include_missing_witness :
    (processDoc c2args).criteria_passed = false ∧
    (processDoc c2args).failure_reason = "include_md_missing" ∧
    (processDoc c2args).azure_experience_links = [] ∧
    (processDoc c2args).calculator_root_links = [] ∧
    (processDoc c2args).calculator_shared_estimate_links = [] ∧
    (processDoc c2args).calculator_other_links = [] ∧
    (processDoc c2args).pricing_calculator_links = [] ∧
    (processDoc c2args).shared_estimate_links = [] ∧
    (processDoc c2args).all_matching_links = [] ∧
    (processDoc c2args).image_paths = [] ∧
    (processDoc c2args).image_download_urls = [] ∧
    (processDoc c2args).image_exists_in_repo = [] ∧
    (processDoc c2args).image_formats = [] ∧
    (processDoc c2args).svg_paths = [] ∧
    (processDoc c2args).svg_download_urls = [] ∧
    (processDoc c2args).svg_exists_in_repo = [] ∧
    (processDoc c2args).architecture_image_heuristic = false ∧
    (processDoc c2args).include_md_path = some "docs/includes/foo.md" ∧
    (processDoc c2args).title = (extract_yaml_meta c2data).title ∧
    (processDoc c2args).description = (extract_yaml_meta c2data).description ∧
    (processDoc c2args).azureCategories =
      (extract_yaml_meta c2data).azureCategories :=
  c2_include_missing c2args c2data "[!INCLUDE [](./includes/foo.md)]"
    "./includes/foo.md" "docs/includes/foo.md" rfl rfl (by decide) (by decide)
    rfl

end Claim2

section Claim10

/-- The four per-image values computed by one iteration of the image loop
of `scan` (lines 384–403). -/
structure ImgRow where
  rel : String
  url : String
  ex : Bool
  fmt : Option String

/-- The loop body of the image loop, as a function of the accepted image. -/
def imgRow (a : ScanArgs) (md_dir : List String) (f : Found) : ImgRow :=
  let img_ref := clean_ref f.raw
  let fmt := fmtOf img_ref
  let img_rel :=
    match resolve_repo_rel md_dir img_ref a.repo_root with
    | some rel => rel
    | none => lstripSlash (pyStrip img_ref)
  { rel := img_rel
    url := make_raw_url a.repo_slug a.branch img_rel
    ex := a.fsExists img_rel
    fmt := fmt }

/-- The svg sub-list condition of the image loop (`fmt == "svg"`). -/
def isSvgRow (e : ImgRow) : Bool := e.fmt = some "svg"

/-- The image loop emits, for each accepted image in order, one row whose
components fill the four parallel lists, and the svg lists are the filter
of those rows by the svg format test. -/
theorem processImages_rows (a : ScanArgs) (md_dir : List String)
    (l : List Found) :
    processImages a md_dir l =
      { image_paths := (l.map (imgRow a md_dir)).map ImgRow.rel
        image_download_urls := (l.map (imgRow a md_dir)).map ImgRow.url
        image_exists_in_repo := (l.map (imgRow a md_dir)).map ImgRow.ex
        image_formats := (l.map (imgRow a md_dir)).map ImgRow.fmt
        svg_paths := ((l.map (imgRow a md_dir)).filter isSvgRow).map ImgRow.rel
        svg_download_urls :=
          ((l.map (imgRow a md_dir)).filter isSvgRow).map ImgRow.url
        svg_exists_in_repo :=
          ((l.map (imgRow a md_dir)).filter isSvgRow).map ImgRow.ex } := by
  induction l with
  | nil => rfl
  | cons f rest ih =>
    by_cases h : fmtOf (clean_ref f.raw) = some "svg" <;>
      simp [processImages, imgRow, isSvgRow, ih, List.filter_cons, h]

/-- Every emitted record either failed the criteria or carries image lists
that are the parallel projections of one row list built from the accepted
images of the document. -/
theorem processDoc_rows (a : ScanArgs) :
    (processDoc a).criteria_passed = false ∨
    ∃ (md_dir : List String) (imgs : List Found),
      (processDoc a).image_paths = (imgs.map (imgRow a md_dir)).map ImgRow.rel ∧
      (processDoc a).image_download_urls =
        (imgs.map (imgRow a md_dir)).map ImgRow.url ∧
      (processDoc a).image_exists_in_repo =
        (imgs.map (imgRow a md_dir)).map ImgRow.ex ∧
      (processDoc a).image_formats =
        (imgs.map (imgRow a md_dir)).map ImgRow.fmt ∧
      (processDoc a).svg_paths =
        ((imgs.map (imgRow a md_dir)).filter isSvgRow).map ImgRow.rel ∧
      (processDoc a).svg_download_urls =
        ((imgs.map (imgRow a md_dir)).filter isSvgRow).map ImgRow.url ∧
      (processDoc a).svg_exists_in_repo =
        ((imgs.map (imgRow a md_dir)).filter isSvgRow).map ImgRow.ex := by
  simp only [processDoc]
  repeat' split
  all_goals try (left; rfl)
  all_goals right
  all_goals rw [processImages_rows]
  all_goals exact ⟨_, _, rfl, rfl, rfl, rfl, rfl, rfl, rfl⟩

/-- C10: in every emitted record with `criteria_passed = true`, the lists
`image_paths`, `image_download_urls`, `image_exists_in_repo` and
`image_formats` have equal length, index `i` of each list projecting the
same per-image row built from the `i`-th accepted image, and the svg lists
are exactly the subsequence of those rows whose format is `svg`, in the
same order. -/
theorem c10_image_alignment (a : ScanArgs)
    (h : (processDoc a).criteria_passed = true) :
    ∃ (md_dir : List String) (imgs : List Found) (rows : List ImgRow),
      rows = imgs.map (imgRow a md_dir) ∧
      (processDoc a).image_paths = rows.map ImgRow.rel ∧
      (processDoc a).image_download_urls = rows.map ImgRow.url ∧
      (processDoc a).image_exists_in_repo = rows.map ImgRow.ex ∧
      (processDoc a).image_formats = rows.map ImgRow.fmt ∧
      (processDoc a).image_download_urls.length =
        (processDoc a).image_paths.length ∧
      (processDoc a).image_exists_in_repo.length =
        (processDoc a).image_paths.length ∧
      (processDoc a).image_formats.length =
        (processDoc a).image_paths.length ∧
      (processDoc a).svg_paths = (rows.filter isSvgRow).map ImgRow.rel ∧
      (processDoc a).svg_download_urls = (rows.filter isSvgRow).map ImgRow.url ∧
      (processDoc a).svg_exists_in_repo = (rows.filter isSvgRow).map ImgRow.ex := by
  rcases processDoc_rows a with hfail | ⟨md, imgs, h1, h2, h3, h4, h5, h6, h7⟩
  · rw [h] at hfail
    cases hfail
  · exact ⟨md, imgs, imgs.map (imgRow a md), rfl, h1, h2, h3, h4,
      by rw [h1, h2]; simp, by rw [h1, h3]; simp, by rw [h1, h4]; simp,
      h5, h6, h7⟩

/-- A document that passes every stage: its include file exists and its
text holds a qualifying link, an svg architecture image and a png one. -/
def c10args : ScanArgs := { c2args with
  fsExists := fun _ => true
  readFile := fun _ =>
    "See https://azure.com/e/abc123 for cost.\n:::image type=\"content\" source=\"./media/arch.svg\" alt-text=\"x\"::: and <img src=\"./media/b.png\" alt=\"architecture diagram\">" }

set_option maxRecDepth 100000 in
/-- Witness for C10 at a concrete passing document with one svg and one png
image. -/
theorem c10_image_alignment_witness :
    (processDoc c10args).criteria_passed = true ∧
    ∃ (md_dir : List String) (imgs : List Found) (rows : List ImgRow),
      rows = imgs.map (imgRow c10args md_dir) ∧
      (processDoc c10args).image_paths = rows.map ImgRow.rel ∧
      (processDoc c10args).image_download_urls = rows.map ImgRow.url ∧
      (processDoc c10args).image_exists_in_repo = rows.map ImgRow.ex ∧
      (processDoc c10args).image_formats = rows.map ImgRow.fmt ∧
      (processDoc c10args).image_download_urls.length =
        (processDoc c10args).image_paths.length ∧
      (processDoc c10args).image_exists_in_repo.length =
        (processDoc c10args).image_paths.length ∧
      (processDoc c10args).image_formats.length =
        (processDoc c10args).image_paths.length ∧
      (processDoc c10args).svg_paths = (rows.filter isSvgRow).map ImgRow.rel ∧
      (processDoc c10args).svg_download_urls =
        (rows.filter isSvgRow).map ImgRow.url ∧
      (processDoc c10args).svg_exists_in_repo =
        (rows.filter isSvgRow).map ImgRow.ex := by
  have hp : (processDoc c10args).criteria_passed = true := by decide
  exact ⟨hp, c10_image_alignment c10args hp⟩

end Claim10

end ACS
